import Mathlib

/-!
Verification of the metorial/object-storage gateway against its
natural-language specification.

The development shallowly embeds the parts of the Rust source that the
claims are about:

* `validate_object_key` and `is_valid_bucket_name`
  (src/object-store/src/service.rs, src/object-store/src/metadata.rs);
* the Local backend (src/object-store-backends/src/local.rs): the
  filesystem is modelled as an association list from relative paths
  (`Str`, lists of characters) to file contents; byte streams are
  modelled as the finite byte list they deliver, and the running
  SHA-256 over the chunks is the SHA-256 of that list;
* the service data plane over the Local backend
  (src/object-store/src/service.rs);
* the metadata store (bucket catalog, cache, advisory locks;
  src/object-store/src/metadata.rs) over the abstract `Backend`
  key-value interface (src/object-store-backends/src/backend.rs),
  modelled as an association list from keys to records.  Records the
  code serializes to JSON are stored structurally (serde round-trips);
  a read that would fail to parse is a read of a record of the wrong
  shape.  Timestamps are modelled as integer seconds.

Backend calls made by the metadata/service layer are recorded in an
explicit event trace where a claim is about their order or presence.
-/

namespace ObjStore

/-- Strings are modelled as lists of Unicode characters. -/
abbrev Str := List Char

/-- Rust `str::contains("..")`: a two-character pattern occurs as a
substring exactly when its characters occur consecutively, which is what
this scan decides (see `containsDotDot_iff_sub`). -/
def containsDotDot : Str → Bool
  | [] => false
  | [_] => false
  | a :: b :: t => (a == '.' && b == '.') || containsDotDot (b :: t)

/-- Rust `str::starts_with('/')`. -/
def startsWithSlash : Str → Bool
  | [] => false
  | c :: _ => c == '/'

theorem containsDotDot_iff_sub (l : Str) :
    containsDotDot l = true ↔ ['.', '.'] <:+: l := by
  induction l with
  | nil => simp [containsDotDot]
  | cons a l ih =>
    rw [List.infix_cons_iff]
    cases l with
    | nil =>
      simp [containsDotDot, List.cons_prefix_cons]
    | cons b t =>
      simp only [containsDotDot, Bool.or_eq_true, Bool.and_eq_true, beq_iff_eq, ih,
        List.cons_prefix_cons]
      constructor
      · rintro (⟨rfl, rfl⟩ | h)
        · exact Or.inl ⟨rfl, rfl, by simp⟩
        · exact Or.inr h
      · rintro (⟨rfl, rfl, -⟩ | h)
        · exact Or.inl ⟨rfl, rfl⟩
        · exact Or.inr h

theorem containsDotDot_cons_of_ne {x : Char} (hx : x ≠ '.') (l : Str) :
    containsDotDot (x :: l) = containsDotDot l := by
  cases l with
  | nil => simp [containsDotDot]
  | cons b t => simp [containsDotDot, hx]

theorem containsDotDot_append_of_no_dot {xs ys : Str}
    (h : ∀ c ∈ xs, c ≠ '.') :
    containsDotDot (xs ++ ys) = containsDotDot ys := by
  induction xs with
  | nil => rfl
  | cons x xs ih =>
    rw [List.cons_append, containsDotDot_cons_of_ne (h x (by simp))]
    exact ih fun c hc => h c (by simp [hc])

/-! ### Error kinds

`BackendError` (src/object-store-backends/src/error.rs) and
`ServiceError` (src/object-store/src/error.rs).  Message payloads are
modelled by the offending key/name. -/

inductive BackendError where
  | notFound (key : Str)
  | invalidPath (key : Str)
  | provider (detail : Str)
  | serialization (detail : Str)
  deriving DecidableEq

inductive ServiceError where
  | backend (e : BackendError)
  | bucketNotFound (name : Str)
  | bucketAlreadyExists (name : Str)
  | invalidBucketName (name : Str)
  | invalidObjectKey (key : Str)
  | lockAcquisition (detail : Str)
  | internal (detail : Str)
  deriving DecidableEq

/-! ### Key validation (src/object-store/src/service.rs, `validate_object_key`) -/

/-- The reserved marker name `.bucket`. -/
def dotBucket : Str := ".bucket".toList

/-- `validate_object_key` from src/object-store/src/service.rs:
empty, containing `..`, starting with `/`, or equal to `.bucket` is
rejected with `InvalidObjectKey`. -/
def validate_object_key (key : Str) : Except ServiceError Unit :=
  if key.isEmpty then .error (.invalidObjectKey key)
  else if containsDotDot key || startsWithSlash key then .error (.invalidObjectKey key)
  else if key = dotBucket then .error (.invalidObjectKey key)
  else .ok ()

theorem validate_object_key_ok_iff (key : Str) :
    validate_object_key key = .ok () ↔
      (key ≠ [] ∧ ¬ (['.', '.'] <:+: key) ∧ ¬ (['/'] <+: key) ∧ key ≠ dotBucket) := by
  have hsw : startsWithSlash key = true ↔ ['/'] <+: key := by
    cases key with
    | nil => simp [startsWithSlash]
    | cons c t =>
      simp only [startsWithSlash, beq_iff_eq, List.cons_prefix_cons, List.nil_prefix, and_true]
      exact eq_comm
  unfold validate_object_key
  split
  · next h =>
    simp only [List.isEmpty_iff] at h
    subst h
    constructor
    · intro hc; cases hc
    · rintro ⟨hne, -⟩; exact absurd rfl hne
  · next h =>
    simp only [List.isEmpty_iff] at h
    split
    · next h2 =>
      simp only [Bool.or_eq_true] at h2
      constructor
      · intro hc; cases hc
      · rintro ⟨-, hdd, hsl, -⟩
        rcases h2 with h2 | h2
        · exact absurd ((containsDotDot_iff_sub key).mp h2) hdd
        · exact absurd (hsw.mp h2) hsl
    · next h2 =>
      simp only [Bool.or_eq_true, not_or] at h2
      split
      · next h3 =>
        constructor
        · intro hc; cases hc
        · rintro ⟨-, -, -, hb⟩; exact absurd h3 hb
      · next h3 =>
        simp only [true_iff]
        refine ⟨h, ?_, ?_, h3⟩
        · intro hdd
          exact h2.1 ((containsDotDot_iff_sub key).mpr hdd)
        · intro hsl
          exact h2.2 (hsw.mpr hsl)

theorem validate_object_key_error_kind (key : Str) (e : ServiceError)
    (h : validate_object_key key = .error e) : e = .invalidObjectKey key := by
  unfold validate_object_key at h
  split at h <;> first
    | (cases h; rfl)
    | (split at h <;> first
        | (cases h; rfl)
        | (split at h
           · cases h; rfl
           · cases h))

/-- C4: `validate_object_key(key)` succeeds iff the key is non-empty,
has no `..` substring, does not start with `/` and is not `.bucket`,
and every failure is the `InvalidObjectKey` kind. -/
theorem C4_validate_object_key :
    (∀ key : Str, validate_object_key key = .ok () ↔
      (key ≠ [] ∧ ¬ (['.', '.'] <:+: key) ∧ ¬ (['/'] <+: key) ∧ key ≠ dotBucket)) ∧
    (∀ key e, validate_object_key key = .error e → e = .invalidObjectKey key) :=
  ⟨validate_object_key_ok_iff, validate_object_key_error_kind⟩

/-- Witness for C4 at concrete keys: a valid key is accepted, and a
rejected key's error is the `InvalidObjectKey` kind. -/
theorem C4_witness :
    validate_object_key "valid/key.txt".toList = .ok () ∧
    (∃ e, validate_object_key dotBucket = .error e ∧
      e = .invalidObjectKey dotBucket) :=
  ⟨(C4_validate_object_key.1 "valid/key.txt".toList).mpr
    ⟨by decide, by decide, by decide, by decide⟩,
   ⟨.invalidObjectKey dotBucket, rfl, C4_validate_object_key.2 dotBucket _ rfl⟩⟩

/-! ### Bucket-name validation (src/object-store/src/metadata.rs, `is_valid_bucket_name`) -/

/-- Rust `u8::is_ascii_lowercase`: code 97..=122. -/
def isAsciiLowercaseByte (b : Nat) : Bool := decide (97 ≤ b ∧ b ≤ 122)

/-- Rust `u8::is_ascii_digit`: code 48..=57. -/
def isAsciiDigitByte (b : Nat) : Bool := decide (48 ≤ b ∧ b ≤ 57)

/-- Rust `char::is_ascii_lowercase` (the same code-point test). -/
def isAsciiLowercaseChar (c : Char) : Bool := isAsciiLowercaseByte c.toNat

/-- Rust `char::is_ascii_digit` (the same code-point test). -/
def isAsciiDigitChar (c : Char) : Bool := isAsciiDigitByte c.toNat

/-- The UTF-8 encoding of one character, as Rust's `str::as_bytes`
exposes it. -/
def utf8Bytes (c : Char) : List Nat :=
  let n := c.toNat
  if n < 128 then [n]
  else if n < 2048 then [192 + n / 64, 128 + n % 64]
  else if n < 65536 then [224 + n / 4096, 128 + n / 64 % 64, 128 + n % 64]
  else [240 + n / 262144, 128 + n / 4096 % 64, 128 + n / 64 % 64, 128 + n % 64]

/-- `str::as_bytes` / `str::len` view of a string: its UTF-8 bytes. -/
def strBytes (s : Str) : List Nat := s.flatMap utf8Bytes

/-- The character class of the source's final `chars().all(..)` check. -/
def allowedNameChar (c : Char) : Bool :=
  isAsciiLowercaseChar c || isAsciiDigitChar c || c == '-'

/-- `is_valid_bucket_name` from src/object-store/src/metadata.rs.
`name.len()` and the `bytes[0]` / `bytes[len-1]` checks are over UTF-8
bytes, the final check is over characters, exactly as in the source
(the source's `bytes`, `first`, `last` bindings are inlined). -/
def is_valid_bucket_name (name : Str) : Bool :=
  if (strBytes name).length < 3 || (strBytes name).length > 63 then false
  else if !(isAsciiLowercaseByte ((strBytes name).headD 0)) &&
          !(isAsciiDigitByte ((strBytes name).headD 0)) then false
  else if !(isAsciiLowercaseByte ((strBytes name).getLastD 0)) &&
          !(isAsciiDigitByte ((strBytes name).getLastD 0)) then false
  else name.all allowedNameChar

/-- An ASCII lowercase letter or digit: the class required of the first
and last character. -/
def lowerOrDigit (c : Char) : Prop :=
  isAsciiLowercaseChar c = true ∨ isAsciiDigitChar c = true

/-- The claim's reading of the bucket-name rule: 3 to 63 characters,
first and last an ASCII lowercase letter or digit, every interior
character additionally allowed to be `-`. -/
def validNameClaim (name : Str) : Prop :=
  ∃ a mid z, name = a :: (mid ++ [z]) ∧
    3 ≤ name.length ∧ name.length ≤ 63 ∧
    lowerOrDigit a ∧ lowerOrDigit z ∧
    ∀ c ∈ mid, lowerOrDigit c ∨ c = '-'

theorem toNat_lt_128_of_allowed {c : Char} (h : allowedNameChar c = true) :
    c.toNat < 128 := by
  simp only [allowedNameChar, isAsciiLowercaseChar, isAsciiDigitChar, isAsciiLowercaseByte,
    isAsciiDigitByte, Bool.or_eq_true, decide_eq_true_eq, beq_iff_eq] at h
  rcases h with (⟨-, h⟩ | ⟨-, h⟩) | rfl
  · omega
  · omega
  · decide

theorem utf8Bytes_ascii {c : Char} (h : c.toNat < 128) : utf8Bytes c = [c.toNat] := by
  simp [utf8Bytes, h]

theorem strBytes_eq_map {s : Str} (h : ∀ c ∈ s, c.toNat < 128) :
    strBytes s = s.map Char.toNat := by
  induction s with
  | nil => rfl
  | cons c t ih =>
    have hc : utf8Bytes c = [c.toNat] := utf8Bytes_ascii (h c (by simp))
    have ht := ih fun c hc => h c (by simp [hc])
    simp only [strBytes] at ht ⊢
    simp [hc, ht]

theorem getLastD_snoc (l : List Nat) (x : Nat) : ∀ d, (l ++ [x]).getLastD d = x := by
  induction l with
  | nil => intro d; rfl
  | cons a l ih =>
    intro d
    rw [List.cons_append, List.getLastD_cons]
    exact ih a

theorem byte_check_cases {w : Nat}
    (hw : ¬ ((!(isAsciiLowercaseByte w) && !(isAsciiDigitByte w)) = true)) :
    isAsciiLowercaseByte w = true ∨ isAsciiDigitByte w = true := by
  rcases Bool.eq_false_or_eq_true (isAsciiLowercaseByte w) with hf | hf
  · exact Or.inl hf
  · rcases Bool.eq_false_or_eq_true (isAsciiDigitByte w) with hg | hg
    · exact Or.inr hg
    · exact absurd (by simp [hf, hg]) hw

theorem byte_check_pass {w : Nat}
    (hw : isAsciiLowercaseByte w = true ∨ isAsciiDigitByte w = true) :
    (!(isAsciiLowercaseByte w) && !(isAsciiDigitByte w)) = false := by
  rcases hw with hw | hw <;> simp [hw]

theorem map_toNat_snoc (a : Char) (mid : List Char) (z : Char) :
    (a :: (mid ++ [z])).map Char.toNat = (a.toNat :: mid.map Char.toNat) ++ [z.toNat] := by
  simp

theorem exists_cons_snoc (l : List Char) (h : 2 ≤ l.length) :
    ∃ a mid z, l = a :: (mid ++ [z]) := by
  rcases List.eq_nil_or_concat l with rfl | ⟨init, z, rfl⟩
  · simp at h
  · rcases init with _ | ⟨a, mid⟩
    · rw [List.concat_eq_append] at h
      simp at h
    · exact ⟨a, mid, z, by simp [List.concat_eq_append]⟩

theorem is_valid_bucket_name_iff (name : Str) :
    is_valid_bucket_name name = true ↔ validNameClaim name := by
  constructor
  · intro h
    unfold is_valid_bucket_name at h
    split at h
    · cases h
    · next hlen =>
      split at h
      · cases h
      · next hfirst =>
        split at h
        · cases h
        · next hlast =>
          simp only [List.all_eq_true] at h
          have hascii : ∀ c ∈ name, c.toNat < 128 :=
            fun c hc => toNat_lt_128_of_allowed (h c hc)
          have hbytes : strBytes name = name.map Char.toNat := strBytes_eq_map hascii
          simp only [Bool.or_eq_true, decide_eq_true_eq, not_or, not_lt] at hlen
          rw [hbytes, List.length_map] at hlen
          obtain ⟨hlen3, hlen63⟩ := hlen
          obtain ⟨a, mid, z, rfl⟩ := exists_cons_snoc name (by omega)
          rw [hbytes] at hfirst hlast
          rw [map_toNat_snoc, getLastD_snoc] at hlast
          rw [map_toNat_snoc, List.cons_append, List.headD_cons] at hfirst
          refine ⟨a, mid, z, rfl, hlen3, hlen63,
            byte_check_cases hfirst, byte_check_cases hlast, ?_⟩
          intro c hc
          have hco := h c (by simp [hc])
          simp only [allowedNameChar, Bool.or_eq_true, beq_iff_eq] at hco
          rcases hco with (hl | hd) | hdash
          · exact Or.inl (Or.inl hl)
          · exact Or.inl (Or.inr hd)
          · exact Or.inr hdash
  · rintro ⟨a, mid, z, rfl, hlen3, hlen63, ha, hz, hmid⟩
    have hall : ∀ c ∈ a :: (mid ++ [z]), allowedNameChar c = true := by
      intro c hc
      simp only [List.mem_cons, List.mem_append, List.mem_singleton,
        List.not_mem_nil, or_false] at hc
      have hcd : lowerOrDigit c ∨ c = '-' := by
        rcases hc with rfl | hc | rfl
        · exact Or.inl ha
        · exact hmid c hc
        · exact Or.inl hz
      rcases hcd with (hl | hd) | rfl
      · simp [allowedNameChar, hl]
      · simp [allowedNameChar, hd]
      · simp [allowedNameChar]
    have hascii : ∀ c ∈ a :: (mid ++ [z]), c.toNat < 128 :=
      fun c hc => toNat_lt_128_of_allowed (hall c hc)
    have hbytes : strBytes (a :: (mid ++ [z])) = (a :: (mid ++ [z])).map Char.toNat :=
      strBytes_eq_map hascii
    unfold is_valid_bucket_name
    rw [hbytes]
    rw [if_neg (by
      simp only [Bool.or_eq_true, decide_eq_true_eq, not_or, not_lt, List.length_map]
      constructor
      · simpa using hlen3
      · simpa using hlen63)]
    rw [map_toNat_snoc, getLastD_snoc, List.cons_append, List.headD_cons]
    rw [if_neg (by rw [byte_check_pass ha]; simp)]
    rw [if_neg (by rw [byte_check_pass hz]; simp)]
    simp only [List.all_eq_true]
    exact hall

/-- C5: `is_valid_bucket_name` accepts exactly the names of 3 to 63
characters whose first and last character are ASCII lowercase letters or
digits and whose interior characters are ASCII lowercase letters, digits
or `-`; in particular it accepts and rejects the listed examples. -/
theorem C5_is_valid_bucket_name :
    (∀ name : Str, is_valid_bucket_name name = true ↔ validNameClaim name) ∧
    is_valid_bucket_name "abc".toList = true ∧
    is_valid_bucket_name "my-bucket".toList = true ∧
    is_valid_bucket_name "bucket123".toList = true ∧
    is_valid_bucket_name "my-bucket-123".toList = true ∧
    is_valid_bucket_name "ab".toList = false ∧
    is_valid_bucket_name "My-Bucket".toList = false ∧
    is_valid_bucket_name "-bucket".toList = false ∧
    is_valid_bucket_name "bucket-".toList = false ∧
    is_valid_bucket_name "bucket_name".toList = false ∧
    is_valid_bucket_name "".toList = false :=
  ⟨is_valid_bucket_name_iff, by decide, by decide, by decide, by decide, by decide,
    by decide, by decide, by decide, by decide, by decide⟩

/-- Witness for C5: the characterization instantiated at a concrete
name. -/
theorem C5_witness :
    is_valid_bucket_name "my-bucket".toList = true ↔
      validNameClaim "my-bucket".toList :=
  C5_is_valid_bucket_name.1 "my-bucket".toList

/-! ### SHA-256 and lowercase hex

The Local backend computes ETags with the `sha2` and `hex` crates
(src/object-store-backends/src/local.rs).  SHA-256 is embedded as the
standard FIPS 180-4 construction over byte lists; 32-bit words are
naturals kept below 2^32.  Feeding the stream chunk by chunk into the
running hasher computes the SHA-256 of the concatenated bytes, so the
model hashes the full byte list. -/

def w32 (n : Nat) : Nat := n % 4294967296

def rotr32 (x n : Nat) : Nat := w32 ((x >>> n) ||| (x <<< (32 - n)))

def bsig0 (x : Nat) : Nat := rotr32 x 2 ^^^ rotr32 x 13 ^^^ rotr32 x 22

def bsig1 (x : Nat) : Nat := rotr32 x 6 ^^^ rotr32 x 11 ^^^ rotr32 x 25

def ssig0 (x : Nat) : Nat := rotr32 x 7 ^^^ rotr32 x 18 ^^^ (x >>> 3)

def ssig1 (x : Nat) : Nat := rotr32 x 17 ^^^ rotr32 x 19 ^^^ (x >>> 10)

def chf (x y z : Nat) : Nat := (x &&& y) ^^^ ((4294967295 ^^^ x) &&& z)

def majf (x y z : Nat) : Nat := (x &&& y) ^^^ (x &&& z) ^^^ (y &&& z)

/-- Bisection step for the integer cube root. -/
def icbrtGo (n : Nat) : Nat → Nat → Nat → Nat
  | 0, lo, _ => lo
  | fuel + 1, lo, hi =>
    let mid := (lo + hi + 1) / 2
    if hi ≤ lo + 1 then lo
    else if mid * mid * mid ≤ n then icbrtGo n fuel mid hi
    else icbrtGo n fuel lo mid

/-- Integer cube root (largest `r` with `r^3 ≤ n`), for `n < 2^108`. -/
def icbrt (n : Nat) : Nat := icbrtGo n 60 0 68719476737

/-- The first `k` primes (enough range for the 64 SHA-256 constants). -/
def firstPrimes (k : Nat) : List Nat :=
  ((List.range 400).filter fun n => decide (Nat.Prime n)).take k

/-- FIPS 180-4: a round constant is the first 32 bits of the fractional
part of the cube root of a prime. -/
def fracCbrtWord (p : Nat) : Nat :=
  icbrt (p * 79228162514264337593543950336) % 4294967296

/-- FIPS 180-4: an initial hash word is the first 32 bits of the
fractional part of the square root of a prime. -/
def fracSqrtWord (p : Nat) : Nat :=
  Nat.sqrt (p * 18446744073709551616) % 4294967296

/-- The 64 SHA-256 round constants, derived from the first 64 primes. -/
def sha256K : List Nat := (firstPrimes 64).map fracCbrtWord

/-- The eight-word SHA-256 state. -/
structure Hash8 where
  a : Nat
  b : Nat
  c : Nat
  d : Nat
  e : Nat
  f : Nat
  g : Nat
  h : Nat
  deriving DecidableEq

/-- The SHA-256 initial state, derived from the first 8 primes. -/
def initH : Hash8 :=
  ⟨fracSqrtWord 2, fracSqrtWord 3, fracSqrtWord 5, fracSqrtWord 7,
   fracSqrtWord 11, fracSqrtWord 13, fracSqrtWord 17, fracSqrtWord 19⟩

/-- One compression round; `kw` is the round constant plus schedule word. -/
def shaRound (st : Hash8) (kw : Nat) : Hash8 :=
  let t1 := w32 (st.h + bsig1 st.e + chf st.e st.f st.g + kw)
  let t2 := w32 (bsig0 st.a + majf st.a st.b st.c)
  ⟨w32 (t1 + t2), st.a, st.b, st.c, w32 (st.d + t1), st.e, st.f, st.g⟩

/-- Extend the 16 block words by `n` message-schedule words. -/
def schedExtend : List Nat → Nat → List Nat
  | ws, 0 => ws
  | ws, n + 1 =>
    schedExtend
      (ws ++ [w32 (ssig1 (ws.getD (ws.length - 2) 0) + ws.getD (ws.length - 7) 0 +
        ssig0 (ws.getD (ws.length - 15) 0) + ws.getD (ws.length - 16) 0)]) n

def add8 (x y : Hash8) : Hash8 :=
  ⟨w32 (x.a + y.a), w32 (x.b + y.b), w32 (x.c + y.c), w32 (x.d + y.d),
   w32 (x.e + y.e), w32 (x.f + y.f), w32 (x.g + y.g), w32 (x.h + y.h)⟩

/-- Big-endian packing of bytes into 32-bit words. -/
def bytesToWords : List Nat → List Nat
  | b0 :: b1 :: b2 :: b3 :: t => (((b0 * 256 + b1) * 256 + b2) * 256 + b3) :: bytesToWords t
  | _ => []

def compressBlock (h : Hash8) (block : List Nat) : Hash8 :=
  let ws := schedExtend (bytesToWords block) 48
  add8 h ((List.zipWith (fun k w => w32 (k + w)) sha256K ws).foldl shaRound h)

/-- Big-endian bytes of `n`, `k` bytes wide. -/
def toBytesBE (n : Nat) : Nat → List Nat
  | 0 => []
  | k + 1 => toBytesBE (n / 256) k ++ [n % 256]

def chunks64 : List Nat → List (List Nat)
  | [] => []
  | a :: t => ((a :: t).take 64) :: chunks64 ((a :: t).drop 64)
termination_by l => l.length
decreasing_by
  simp only [List.length_drop, List.length_cons]
  omega

/-- SHA-256 of a byte list: pad to a multiple of 64 bytes with `0x80`,
zeros and the 8-byte big-endian bit length, then compress each block. -/
def sha256 (msg : List Nat) : List Nat :=
  let padded := msg ++ 128 :: (List.replicate ((119 - msg.length % 64) % 64) 0 ++
    toBytesBE (msg.length * 8) 8)
  let final := (chunks64 padded).foldl compressBlock initH
  toBytesBE final.a 4 ++ toBytesBE final.b 4 ++ toBytesBE final.c 4 ++ toBytesBE final.d 4 ++
    toBytesBE final.e 4 ++ toBytesBE final.f 4 ++ toBytesBE final.g 4 ++ toBytesBE final.h 4

/-- The sixteen lowercase hex digits. -/
def hexChars : Str := "0123456789abcdef".toList

def hexDigitChar (n : Nat) : Char := hexChars.getD n '0'

/-- `hex::encode`: two lowercase hex digits per byte. -/
def hexEncode (bs : List Nat) : Str :=
  bs.flatMap fun b => [hexDigitChar (b / 16), hexDigitChar (b % 16)]

theorem toBytesBE_length (k : Nat) : ∀ n, (toBytesBE n k).length = k := by
  induction k with
  | zero => intro n; rfl
  | succ k ih =>
    intro n
    simp [toBytesBE, ih]

theorem sha256_length (msg : List Nat) : (sha256 msg).length = 32 := by
  unfold sha256
  simp [toBytesBE_length]

theorem sha256_ne_nil (msg : List Nat) : sha256 msg ≠ [] := by
  intro h
  have hl := sha256_length msg
  rw [h] at hl
  simp at hl

theorem hexEncode_ne_nil {bs : List Nat} (h : bs ≠ []) : hexEncode bs ≠ [] := by
  cases bs with
  | nil => exact absurd rfl h
  | cons b t => simp [hexEncode]

theorem hexDigitChar_mem (n : Nat) : hexDigitChar n ∈ hexChars := by
  unfold hexDigitChar
  rcases Nat.lt_or_ge n 16 with h | h
  · interval_cases n <;> decide
  · rw [List.getD_eq_default]
    · decide
    · simpa [hexChars] using h

theorem hexEncode_lower_hex (bs : List Nat) : ∀ c ∈ hexEncode bs, c ∈ hexChars := by
  intro c hc
  unfold hexEncode at hc
  simp only [List.mem_flatMap, List.mem_cons, List.mem_singleton,
    List.not_mem_nil, or_false] at hc
  obtain ⟨b, -, hc | hc⟩ := hc <;> exact hc ▸ hexDigitChar_mem _

/-! ### Local backend filesystem model (src/object-store-backends/src/local.rs)

The bucket directory `<root>/<physical-bucket>` is modelled as an
association list from relative paths (the backend keys) to file
contents; the first binding for a path wins, and a write replaces any
previous binding.  A metadata file's content is the `ObjectMetadata` it
serializes (serde round-trips); reading any other file as metadata
models a JSON parse failure. -/

/-- `ObjectMetadata` from src/object-store-backends/src/backend.rs.
`last_modified` is an integer timestamp, `custom_metadata` a key-value
list. -/
structure ObjectMetadata where
  key : Str
  size : Nat
  content_type : Option Str
  etag : Str
  last_modified : Int
  custom_metadata : List (Str × Str)
  deriving DecidableEq

/-- The content of one file in the bucket directory. -/
inductive FileData where
  | data (bytes : List Nat)
  | meta (m : ObjectMetadata)
  deriving DecidableEq

/-- The bucket directory: relative path to file content. -/
abbrev FS := List (Str × FileData)

def fsLookup (fs : FS) (p : Str) : Option FileData :=
  (fs.find? fun e => e.1 == p).map (·.2)

def fsWrite (fs : FS) (p : Str) (d : FileData) : FS :=
  (p, d) :: fs.filter fun e => !(e.1 == p)

/-- The final path component (`Path::file_name`, as the part after the
last `/`). -/
def lastComp (p : Str) : Str := (p.reverse.takeWhile fun c => c != '/').reverse

/-- Everything up to and including the last `/`. -/
def dirPart (p : Str) : Str := (p.reverse.dropWhile fun c => c != '/').reverse

/-- `Path::file_stem` of a component: the part before the final `.`,
except that a lone leading `.` (a hidden file) starts no extension. -/
def splitStem (comp : Str) : Str :=
  if (comp.reverse.takeWhile fun c => c != '.').length + 1 < comp.length
  then (comp.reverse.drop ((comp.reverse.takeWhile fun c => c != '.').length + 1)).reverse
  else comp

/-- `Path::extension` of a path's final component. -/
def extOf (p : Str) : Option Str :=
  if ((lastComp p).reverse.takeWhile fun c => c != '.').length + 1 < (lastComp p).length
  then some ((lastComp p).reverse.takeWhile fun c => c != '.').reverse
  else none

/-- The suffix `.meta.json` (also the argument of `with_extension`,
with its separating dot). -/
def metaExt : Str := ['.', 'm', 'e', 't', 'a', '.', 'j', 's', 'o', 'n']

/-- `Path::with_extension("meta.json")` on a component: replace the
extension (append when there is none). -/
def withMetaExtension (comp : Str) : Str := splitStem comp ++ metaExt

/-- The path of the sibling metadata file of `p`
(`get_metadata_path`, pure part). -/
def metaPath (p : Str) : Str := dirPart p ++ withMetaExtension (lastComp p)

/-- `LocalBackend::get_full_path`: reject keys containing `..` or
starting with `/`; otherwise the path is the key (relative to the
bucket directory). -/
def get_full_path (key : Str) : Except BackendError Str :=
  if containsDotDot key || startsWithSlash key then .error (.invalidPath key)
  else .ok key

/-- `LocalBackend::get_metadata_path`. -/
def get_metadata_path (key : Str) : Except BackendError Str :=
  match get_full_path key with
  | .error e => .error e
  | .ok p => .ok (metaPath p)

/-- `LocalBackend::read_metadata`: missing metadata file is `NotFound`;
a file that is not a serialized `ObjectMetadata` is a parse failure. -/
def LocalBackend.read_metadata (fs : FS) (key : Str) : Except BackendError ObjectMetadata :=
  match get_metadata_path key with
  | .error e => .error e
  | .ok mp =>
    match fsLookup fs mp with
    | none => .error (.notFound key)
    | some (.meta m) => .ok m
    | some (.data _) => .error (.serialization key)

/-- `LocalBackend::put_object`: write the payload (computing size and
the SHA-256 ETag over the streamed chunks), then write the metadata
file. -/
def LocalBackend.put_object (fs : FS) (key : Str) (bytes : List Nat)
    (content_type : Option Str) (custom_metadata : List (Str × Str)) (now : Int) :
    Except BackendError (ObjectMetadata × FS) :=
  match get_full_path key with
  | .error e => .error e
  | .ok path =>
    let m : ObjectMetadata :=
      ⟨key, bytes.length, content_type, hexEncode (sha256 bytes), now, custom_metadata⟩
    .ok (m, fsWrite (fsWrite fs path (.data bytes)) (metaPath path) (.meta m))

/-- `ObjectData`: metadata plus the stream of the payload file's
contents (the file found at the object path). -/
structure ObjectData where
  metadata : ObjectMetadata
  stream : FileData
  deriving DecidableEq

/-- `LocalBackend::get_object`: path check, existence check, metadata
read, then the file's bytes as the body.  It performs no writes, so the
state is unchanged and repeated calls return the same value. -/
def LocalBackend.get_object (fs : FS) (key : Str) : Except BackendError ObjectData :=
  match get_full_path key with
  | .error e => .error e
  | .ok path =>
    match fsLookup fs path with
    | none => .error (.notFound key)
    | some fd =>
      match LocalBackend.read_metadata fs key with
      | .error e => .error e
      | .ok m => .ok ⟨m, fd⟩

/-- A path whose final component's extension is `json`. -/
def extIsJson (p : Str) : Bool := extOf p == some ['j', 's', 'o', 'n']

/-- `p` with a trailing slash (directory subtree marker). -/
def dirSlash (p : Str) : Str := if p.getLast? = some '/' then p else p ++ ['/']

def isFileIn (fs : FS) (p : Str) : Bool := (fsLookup fs p).isSome

/-- A directory exists iff some file lies strictly inside it. -/
def isDirIn (fs : FS) (p : Str) : Bool := fs.any fun e => (dirSlash p).isPrefixOf e.1

/-- One step of the recursive walk (`list_recursive`), on the flat file
list: a file under the subtree `dirS` (`[]` stands for the bucket root)
is pushed when its name does not end in `.meta.json`, its key starts
with the prefix, and its metadata file is readable. -/
def walkEntry (fs : FS) (dirS : Str) (ps : Str) : Str × FileData → Option ObjectMetadata
  | (p, _) =>
    if dirS.isPrefixOf p && !(metaExt.isSuffixOf p) && ps.isPrefixOf p then
      match LocalBackend.read_metadata fs p with
      | .ok m => some m
      | .error _ => none
    else none

/-- `LocalBackend::list_objects`: the walk starts at
`bucket_path.join(prefix)`.  An empty prefix walks the bucket root; a
prefix naming a file yields that file alone unless its extension is
`json`; a prefix naming a directory walks that subtree; any other
prefix matches nothing.  `max_keys` caps the result. -/
def LocalBackend.list_objects (fs : FS) (pfxOpt : Option Str) (max_keys : Option Nat) :
    List ObjectMetadata :=
  let ps := pfxOpt.getD []
  let raw :=
    if ps.isEmpty then fs.filterMap (walkEntry fs [] ps)
    else if isFileIn fs ps then
      if extIsJson ps then []
      else
        match LocalBackend.read_metadata fs ps with
        | .ok m => [m]
        | .error _ => []
    else if isDirIn fs ps then fs.filterMap (walkEntry fs (dirSlash ps) ps)
    else []
  match max_keys with
  | some mk => raw.take mk
  | none => raw

/-! ### Service data plane over the Local backend
(src/object-store/src/service.rs)

`Bucket` is the catalog record (id, name, creation time).  The
data-plane operations first verify the bucket exists; these models take
the bucket cache and cover its cache-hit path (`get_bucket` returns the
cached record without touching the backend); the full three-tier
`get_bucket` is modelled in the metadata-store section below. -/

/-- `Bucket` from src/object-store/src/metadata.rs; `created_at` is an
integer timestamp. -/
structure Bucket where
  id : Str
  name : Str
  created_at : Int
  deriving DecidableEq

def cacheGet (cache : List (Str × Bucket)) (name : Str) : Option Bucket :=
  (cache.find? fun e => e.1 == name).map (·.2)

/-- `ObjectStoreService::put_object`: bucket check, key validation,
prefix mapping to `<bucket>/<key>`, then the backend put. -/
def ObjectStoreService.put_object (cache : List (Str × Bucket)) (fs : FS)
    (bucket key : Str) (bytes : List Nat) (content_type : Option Str)
    (custom_metadata : List (Str × Str)) (now : Int) :
    Except ServiceError (ObjectMetadata × FS) :=
  match cacheGet cache bucket with
  | none => .error (.bucketNotFound bucket)
  | some _ =>
    match validate_object_key key with
    | .error e => .error e
    | .ok () =>
      match LocalBackend.put_object fs (bucket ++ '/' :: key) bytes content_type
          custom_metadata now with
      | .error e => .error (.backend e)
      | .ok r => .ok r

/-- `ObjectStoreService::get_object`: bucket check, key validation,
prefix mapping, backend get.  No state is written. -/
def ObjectStoreService.get_object (cache : List (Str × Bucket)) (fs : FS)
    (bucket key : Str) : Except ServiceError ObjectData :=
  match cacheGet cache bucket with
  | none => .error (.bucketNotFound bucket)
  | some _ =>
    match validate_object_key key with
    | .error e => .error e
    | .ok () =>
      match LocalBackend.get_object fs (bucket ++ '/' :: key) with
      | .error e => .error (.backend e)
      | .ok r => .ok r

/-- The reserved marker suffix `/.bucket`. -/
def slashBucketSuf : Str := ['/', '.', 'b', 'u', 'c', 'k', 'e', 't']

/-- `ObjectStoreService::list_objects`: backend prefix
`<bucket>/<prefix?>`, entries ending in `/.bucket` filtered out, the
`<bucket>/` prefix stripped from returned keys. -/
def ObjectStoreService.list_objects (cache : List (Str × Bucket)) (fs : FS)
    (bucket : Str) (pfxOpt : Option Str) (max_keys : Option Nat) :
    Except ServiceError (List ObjectMetadata) :=
  match cacheGet cache bucket with
  | none => .error (.bucketNotFound bucket)
  | some _ =>
    let fullPfx := match pfxOpt with
      | some p => bucket ++ '/' :: p
      | none => bucket ++ ['/']
    let objs := LocalBackend.list_objects fs (some fullPfx) max_keys
    .ok ((objs.filter fun m => !(slashBucketSuf.isSuffixOf m.key)).map fun m =>
      if (bucket ++ ['/']).isPrefixOf m.key
      then { m with key := m.key.drop (bucket.length + 1) }
      else m)

/-! ### Path and filesystem lemmas -/

theorem takeWhile_append_of_lt {p : Char → Bool} (A B : List Char)
    (h : (A.takeWhile p).length < A.length) :
    (A ++ B).takeWhile p = A.takeWhile p := by
  induction A with
  | nil => simp at h
  | cons a A ih =>
    cases hpa : p a with
    | false =>
      rw [List.cons_append, List.takeWhile_cons_of_neg (by simp [hpa]),
        List.takeWhile_cons_of_neg (by simp [hpa])]
    | true =>
      rw [List.takeWhile_cons_of_pos (by simp [hpa])] at h
      rw [List.cons_append, List.takeWhile_cons_of_pos (by simp [hpa]),
        List.takeWhile_cons_of_pos (by simp [hpa]), ih (by simpa using h)]

theorem dirPart_append_lastComp (p : Str) : dirPart p ++ lastComp p = p := by
  unfold dirPart lastComp
  rw [← List.reverse_append, List.takeWhile_append_dropWhile, List.reverse_reverse]

theorem withMetaExtension_ne (comp : Str) : withMetaExtension comp ≠ comp := by
  intro h
  unfold withMetaExtension splitStem at h
  by_cases hc : ((comp.reverse.takeWhile fun c => c != '.').length + 1 < comp.length)
  · rw [if_pos hc] at h
    have hlen := congrArg List.length h
    simp only [List.length_append, List.length_reverse, List.length_drop] at hlen
    have h2 := congrArg List.reverse h
    simp only [List.reverse_append, List.reverse_reverse] at h2
    have h3 : (comp.reverse.takeWhile fun c => c != '.') =
        (metaExt.reverse.takeWhile fun c => c != '.') := by
      rw [← h2]
      exact takeWhile_append_of_lt _ _ (by decide)
    have hk := congrArg List.length h3
    have hk4 : ((metaExt.reverse.takeWhile fun c => c != '.')).length = 4 := by decide
    have hme : metaExt.length = 10 := by decide
    rw [hk4] at hk
    rw [hme, hk] at hlen
    omega
  · rw [if_neg hc] at h
    have hlen := congrArg List.length h
    have hme : metaExt.length = 10 := by decide
    simp only [List.length_append, hme] at hlen
    omega

theorem metaPath_ne (p : Str) : metaPath p ≠ p := by
  intro h
  unfold metaPath at h
  have h2 : dirPart p ++ withMetaExtension (lastComp p) = dirPart p ++ lastComp p := by
    rw [h, dirPart_append_lastComp]
  exact withMetaExtension_ne _ (List.append_cancel_left h2)

theorem fsLookup_cons (e : Str × FileData) (t : FS) (q : Str) :
    fsLookup (e :: t) q = if e.1 = q then some e.2 else fsLookup t q := by
  unfold fsLookup
  rw [List.find?_cons]
  by_cases h : e.1 = q
  · simp [h]
  · have hb : (e.1 == q) = false := beq_false_of_ne h
    simp [h, hb]

theorem fsLookup_filter_ne (fs : FS) (p q : Str) (h : q ≠ p) :
    fsLookup (fs.filter fun e => !(e.1 == p)) q = fsLookup fs q := by
  induction fs with
  | nil => rfl
  | cons e t ih =>
    by_cases hep : e.1 = p
    · rw [List.filter_cons_of_neg (by simp [hep]), ih, fsLookup_cons,
        if_neg (show ¬ e.1 = q from fun hq => h (hq ▸ hep))]
    · rw [List.filter_cons_of_pos (by simp [hep]), fsLookup_cons, fsLookup_cons, ih]

theorem fsLookup_write_self (fs : FS) (p : Str) (d : FileData) :
    fsLookup (fsWrite fs p d) p = some d := by
  unfold fsWrite
  rw [fsLookup_cons, if_pos rfl]

theorem fsLookup_write_ne (fs : FS) (p : Str) (d : FileData) (q : Str) (h : q ≠ p) :
    fsLookup (fsWrite fs p d) q = fsLookup fs q := by
  unfold fsWrite
  rw [fsLookup_cons, if_neg (fun hpq => h hpq.symm), fsLookup_filter_ne fs p q h]

/-! ### The full backend key `<bucket>/<key>` passes the Local path check -/

theorem lowerOrDigit_ne_dot_slash {c : Char} (h : lowerOrDigit c) : c ≠ '.' ∧ c ≠ '/' := by
  constructor <;> rintro rfl <;> rcases h with h | h <;> revert h <;> decide

theorem valid_name_no_dot {B : Str} (hB : is_valid_bucket_name B = true) :
    ∀ c ∈ B, c ≠ '.' := by
  obtain ⟨a, mid, z, rfl, -, -, ha, hz, hmid⟩ := (is_valid_bucket_name_iff B).mp hB
  intro c hc
  simp only [List.mem_cons, List.mem_append, List.mem_singleton,
    List.not_mem_nil, or_false] at hc
  rcases hc with rfl | hc | rfl
  · exact (lowerOrDigit_ne_dot_slash ha).1
  · rcases hmid c hc with hcd | rfl
    · exact (lowerOrDigit_ne_dot_slash hcd).1
    · decide
  · exact (lowerOrDigit_ne_dot_slash hz).1

theorem valid_name_head {B : Str} (hB : is_valid_bucket_name B = true) :
    ∃ a t, B = a :: t ∧ a ≠ '/' := by
  obtain ⟨a, mid, z, rfl, -, -, ha, -, -⟩ := (is_valid_bucket_name_iff B).mp hB
  exact ⟨a, mid ++ [z], rfl, (lowerOrDigit_ne_dot_slash ha).2⟩

theorem validate_ok_parts {K : Str} (hK : validate_object_key K = .ok ()) :
    containsDotDot K = false ∧ startsWithSlash K = false := by
  unfold validate_object_key at hK
  split at hK
  · cases hK
  · split at hK
    · cases hK
    · next h2 =>
      simp only [Bool.or_eq_true, not_or] at h2
      exact ⟨Bool.eq_false_iff.mpr h2.1, Bool.eq_false_iff.mpr h2.2⟩

theorem fullKey_check {B K : Str} (hB : is_valid_bucket_name B = true)
    (hK : validate_object_key K = .ok ()) :
    get_full_path (B ++ '/' :: K) = .ok (B ++ '/' :: K) := by
  obtain ⟨hdd, hsl⟩ := validate_ok_parts hK
  have hnodot : ∀ c ∈ B ++ ['/'], c ≠ '.' := by
    intro c hc
    rcases List.mem_append.mp hc with hc | hc
    · exact valid_name_no_dot hB c hc
    · rw [List.mem_singleton.mp hc]
      decide
  have hcdd : containsDotDot (B ++ '/' :: K) = false := by
    rw [show B ++ '/' :: K = (B ++ ['/']) ++ K by simp,
      containsDotDot_append_of_no_dot hnodot, hdd]
  have hsw : startsWithSlash (B ++ '/' :: K) = false := by
    obtain ⟨a, t, rfl, ha⟩ := valid_name_head hB
    simp [startsWithSlash, ha]
  unfold get_full_path
  rw [if_neg (by simp [hcdd, hsw])]

theorem local_put_get (fs : FS) (fk : Str) (bytes : List Nat) (ct : Option Str)
    (cm : List (Str × Str)) (now : Int)
    (hfull : get_full_path fk = .ok fk) :
    LocalBackend.put_object fs fk bytes ct cm now =
      .ok (⟨fk, bytes.length, ct, hexEncode (sha256 bytes), now, cm⟩,
        fsWrite (fsWrite fs fk (.data bytes)) (metaPath fk)
          (.meta ⟨fk, bytes.length, ct, hexEncode (sha256 bytes), now, cm⟩)) := by
  simp only [LocalBackend.put_object, hfull]

theorem local_get_after_put (fs : FS) (fk : Str) (m : ObjectMetadata) (bytes : List Nat)
    (hfull : get_full_path fk = .ok fk) :
    LocalBackend.get_object
      (fsWrite (fsWrite fs fk (.data bytes)) (metaPath fk) (.meta m)) fk =
      .ok ⟨m, .data bytes⟩ := by
  have hld : fsLookup (fsWrite (fsWrite fs fk (.data bytes)) (metaPath fk) (.meta m)) fk
      = some (.data bytes) := by
    rw [fsLookup_write_ne _ _ _ _ (fun hq => metaPath_ne fk hq.symm), fsLookup_write_self]
  have hlm : fsLookup (fsWrite (fsWrite fs fk (.data bytes)) (metaPath fk) (.meta m))
      (metaPath fk) = some (.meta m) := fsLookup_write_self _ _ _
  simp only [LocalBackend.get_object, LocalBackend.read_metadata, get_metadata_path,
    hfull, hld, hlm]

/-- C1: a successful service `put_object` into bucket `B` at key `K`
followed by `get_object(B, K)` returns a body equal to the put bytes, a
size equal to their count, and an ETag that is the non-empty lowercase
hex SHA-256 of the body.  `get_object` performs no writes (the model is
a pure function of the filesystem), so every repeated get with no
intervening write returns this same value, ETag included. -/
theorem C1_put_get_roundtrip (cache : List (Str × Bucket)) (fs : FS) (B K : Str)
    (bytes : List Nat) (ct : Option Str) (cm : List (Str × Str)) (now : Int)
    (bkt : Bucket)
    (hB : is_valid_bucket_name B = true)
    (hc : cacheGet cache B = some bkt)
    (hK : validate_object_key K = .ok ()) :
    ∃ m fs',
      ObjectStoreService.put_object cache fs B K bytes ct cm now = .ok (m, fs') ∧
      ObjectStoreService.get_object cache fs' B K = .ok ⟨m, .data bytes⟩ ∧
      m.size = bytes.length ∧
      m.etag = hexEncode (sha256 bytes) ∧
      m.etag ≠ [] ∧
      (∀ c ∈ m.etag, c ∈ hexChars) := by
  have hfull := fullKey_check hB hK
  have hput := local_put_get fs (B ++ '/' :: K) bytes ct cm now hfull
  have hget := local_get_after_put fs (B ++ '/' :: K)
    ⟨B ++ '/' :: K, bytes.length, ct, hexEncode (sha256 bytes), now, cm⟩ bytes hfull
  refine ⟨⟨B ++ '/' :: K, bytes.length, ct, hexEncode (sha256 bytes), now, cm⟩,
    fsWrite (fsWrite fs (B ++ '/' :: K) (.data bytes)) (metaPath (B ++ '/' :: K))
      (.meta ⟨B ++ '/' :: K, bytes.length, ct, hexEncode (sha256 bytes), now, cm⟩),
    ?_, ?_, rfl, rfl,
    hexEncode_ne_nil (sha256_ne_nil bytes), hexEncode_lower_hex _⟩
  · simp only [ObjectStoreService.put_object, hc, hK, hput]
  · simp only [ObjectStoreService.get_object, hc, hK, hget]

/-- Witness for C1 at a concrete bucket, key and byte sequence. -/
theorem C1_witness :
    is_valid_bucket_name "abc".toList = true ∧
    cacheGet [("abc".toList, Bucket.mk [] "abc".toList 0)] "abc".toList =
      some (Bucket.mk [] "abc".toList 0) ∧
    validate_object_key "k.txt".toList = .ok () ∧
    (∃ m fs',
      ObjectStoreService.put_object [("abc".toList, Bucket.mk [] "abc".toList 0)] []
        "abc".toList "k.txt".toList [1, 2] none [] 0 = .ok (m, fs') ∧
      ObjectStoreService.get_object [("abc".toList, Bucket.mk [] "abc".toList 0)] fs'
        "abc".toList "k.txt".toList = .ok ⟨m, .data [1, 2]⟩ ∧
      m.size = [1, 2].length ∧
      m.etag = hexEncode (sha256 [1, 2]) ∧
      m.etag ≠ [] ∧
      (∀ c ∈ m.etag, c ∈ hexChars)) :=
  ⟨by rfl, by rfl, by rfl,
    C1_put_get_roundtrip _ _ _ _ _ _ _ _ _ (by rfl) (by rfl) (by rfl)⟩

/-! ### C8: the two-file layout of the Local backend -/

/-- C8 counterexample: `get_metadata_path` uses
`with_extension("meta.json")`, which replaces the key's final extension
instead of appending `.meta.json`: key `a.txt` gets metadata path
`a.meta.json`, not `a.txt.meta.json`, and the distinct keys `a.txt` and
`a.pdf` share one metadata path. -/
theorem C8_counterexample :
    metaPath "a.txt".toList ≠ "a.txt".toList ++ metaExt ∧
    metaPath "a.txt".toList = metaPath "a.pdf".toList ∧
    "a.txt".toList ≠ "a.pdf".toList ∧
    metaPath "a.txt".toList = "a.meta.json".toList :=
  ⟨by decide, by decide, by decide, by decide⟩

/-- C8 amended: `put_object` stores exactly two files, the payload at
the key's path and the metadata at the path obtained by replacing the
final component's extension with `meta.json` (appending `.meta.json`
only when the component has no extension); the two paths always
differ, but distinct keys need not have distinct metadata paths. -/
theorem C8_two_file_layout (fs : FS) (key : Str) (bytes : List Nat) (ct : Option Str)
    (cm : List (Str × Str)) (now : Int)
    (hok : get_full_path key = .ok key) :
    ∃ m, LocalBackend.put_object fs key bytes ct cm now =
        .ok (m, fsWrite (fsWrite fs key (.data bytes)) (metaPath key) (.meta m)) ∧
      fsLookup (fsWrite (fsWrite fs key (.data bytes)) (metaPath key) (.meta m)) key =
        some (.data bytes) ∧
      fsLookup (fsWrite (fsWrite fs key (.data bytes)) (metaPath key) (.meta m))
        (metaPath key) = some (.meta m) ∧
      metaPath key ≠ key ∧
      metaPath key = dirPart key ++ (splitStem (lastComp key) ++ metaExt) ∧
      (((lastComp key).reverse.takeWhile fun c => c != '.').length + 1 ≥
          (lastComp key).length →
        metaPath key = key ++ metaExt) := by
  refine ⟨⟨key, bytes.length, ct, hexEncode (sha256 bytes), now, cm⟩,
    local_put_get fs key bytes ct cm now hok, ?_, fsLookup_write_self _ _ _,
    metaPath_ne key, rfl, ?_⟩
  · rw [fsLookup_write_ne _ _ _ _ (fun hq => metaPath_ne key hq.symm), fsLookup_write_self]
  · intro h
    unfold metaPath withMetaExtension splitStem
    rw [if_neg (by omega)]
    rw [← List.append_assoc, dirPart_append_lastComp]

/-- Witness for C8's amended layout at a concrete extension-free key. -/
theorem C8_witness :
    get_full_path "dir/data".toList = .ok "dir/data".toList ∧
    (∃ m, LocalBackend.put_object [] "dir/data".toList [7] none [] 0 =
        .ok (m, fsWrite (fsWrite [] "dir/data".toList (.data [7]))
          (metaPath "dir/data".toList) (.meta m)) ∧
      fsLookup (fsWrite (fsWrite [] "dir/data".toList (.data [7]))
        (metaPath "dir/data".toList) (.meta m)) "dir/data".toList = some (.data [7]) ∧
      fsLookup (fsWrite (fsWrite [] "dir/data".toList (.data [7]))
        (metaPath "dir/data".toList) (.meta m)) (metaPath "dir/data".toList) =
        some (.meta m) ∧
      metaPath "dir/data".toList ≠ "dir/data".toList ∧
      metaPath "dir/data".toList =
        dirPart "dir/data".toList ++ (splitStem (lastComp "dir/data".toList) ++ metaExt) ∧
      (((lastComp "dir/data".toList).reverse.takeWhile fun c => c != '.').length + 1 ≥
          (lastComp "dir/data".toList).length →
        metaPath "dir/data".toList = "dir/data".toList ++ metaExt)) :=
  ⟨by rfl, C8_two_file_layout [] "dir/data".toList [7] none [] 0 (by rfl)⟩

/-! ### C2: what the Local listing walk returns -/

theorem fsLookup_mem {fs : FS} {p : Str} {d : FileData}
    (h : fsLookup fs p = some d) : (p, d) ∈ fs := by
  unfold fsLookup at h
  obtain ⟨e, hfind, he2⟩ := Option.map_eq_some'.mp h
  have hmem := List.mem_of_find?_eq_some hfind
  have hp := List.find?_some hfind
  simp only [beq_iff_eq] at hp
  have he : e = (p, d) := by
    obtain ⟨e1, e2⟩ := e
    cases hp
    cases he2
    rfl
  rwa [he] at hmem

theorem mem_fsLookup {fs : FS} (hnd : (fs.map (·.1)).Nodup) {p : Str} {d : FileData}
    (h : (p, d) ∈ fs) : fsLookup fs p = some d := by
  induction fs with
  | nil => cases h
  | cons e t ih =>
    rw [List.map_cons, List.nodup_cons] at hnd
    rw [fsLookup_cons]
    rcases List.mem_cons.mp h with he | hmem
    · rw [← he, if_pos rfl]
    · by_cases hep : e.1 = p
      · exact absurd (hep ▸ List.mem_map.mpr ⟨(p, d), hmem, rfl⟩) hnd.1
      · rw [if_neg hep]
        exact ih hnd.2 hmem

theorem prefix_isPrefixOf {a b : Str} (h : a <+: b) : a.isPrefixOf b = true := by
  rw [List.isPrefixOf_iff_prefix]
  exact h

theorem isPrefixOf_trans {a b c : Str} (h1 : a.isPrefixOf b = true)
    (h2 : b.isPrefixOf c = true) : a.isPrefixOf c = true := by
  rw [List.isPrefixOf_iff_prefix] at h1 h2 ⊢
  exact h1.trans h2

theorem dirSlash_starts_self (p : Str) : p.isPrefixOf (dirSlash p) = true := by
  unfold dirSlash
  split
  · exact prefix_isPrefixOf (List.prefix_refl p)
  · exact prefix_isPrefixOf (List.prefix_append p ['/'])

theorem bslash_prefix_dirSlash (B P : Str) :
    (B ++ ['/']).isPrefixOf (dirSlash (B ++ '/' :: P)) = true := by
  have h1 : (B ++ ['/']) <+: (B ++ '/' :: P) := by
    rw [show B ++ '/' :: P = (B ++ ['/']) ++ P by simp]
    exact List.prefix_append _ _
  exact isPrefixOf_trans (prefix_isPrefixOf h1) (dirSlash_starts_self _)

theorem eq_bslash_drop {B x : Str} (h : (B ++ ['/']).isPrefixOf x = true) :
    x = B ++ '/' :: x.drop (B.length + 1) := by
  rw [List.isPrefixOf_iff_prefix] at h
  obtain ⟨t, ht⟩ := h
  rw [← ht]
  rw [show (B ++ ['/']) ++ t = B ++ '/' :: t by simp]
  congr 1
  rw [show B ++ '/' :: t = (B ++ ['/']) ++ t by simp,
    show B.length + 1 = (B ++ ['/']).length by simp, List.drop_left]

theorem drop_bslash (B k : Str) : (B ++ '/' :: k).drop (B.length + 1) = k := by
  rw [show B ++ '/' :: k = (B ++ ['/']) ++ k by simp,
    show B.length + 1 = (B ++ ['/']).length by simp]
  exact List.drop_left _ _

/-- Well-formedness of one file entry: its path passes the Local path
check; a metadata file's name ends in `.meta.json`; and a payload file
whose sibling metadata file parses carries that payload's own key.
States produced by non-colliding puts of valid keys satisfy this. -/
def wfEntry (fs : FS) : Str × FileData → Bool
  | (p, d) =>
    !(containsDotDot p) && !(startsWithSlash p) &&
      (match d with
       | .meta _ => metaExt.isSuffixOf p
       | .data _ =>
         match fsLookup fs (metaPath p) with
         | some (.meta m) => m.key == p
         | _ => true)

/-- Well-formed bucket directory: distinct paths, each entry well
formed. -/
abbrev WFfs (fs : FS) : Prop :=
  (fs.map (·.1)).Nodup ∧ ∀ e ∈ fs, wfEntry fs e = true

/-- A stored object: payload file at `p`, parseable metadata file at
`metaPath p`. -/
def storedObj (fs : FS) (p : Str) (m : ObjectMetadata) : Prop :=
  (∃ bs, fsLookup fs p = some (.data bs)) ∧ fsLookup fs (metaPath p) = some (.meta m)

theorem wfEntry_parts {fs : FS} {p : Str} {d : FileData} (h : wfEntry fs (p, d) = true) :
    containsDotDot p = false ∧ startsWithSlash p = false ∧
    (∀ m, d = .meta m → metaExt.isSuffixOf p = true) ∧
    (∀ bs m, d = .data bs → fsLookup fs (metaPath p) = some (.meta m) →
      m.key = p) := by
  unfold wfEntry at h
  simp only [Bool.and_eq_true, Bool.not_eq_true'] at h
  obtain ⟨⟨hdd, hsw⟩, hrest⟩ := h
  refine ⟨hdd, hsw, ?_, ?_⟩
  · intro m hm
    rw [hm] at hrest
    exact hrest
  · intro bs m hm hlook
    rw [hm] at hrest
    have hrest' : (match fsLookup fs (metaPath p) with
      | some (.meta m) => m.key == p
      | _ => true) = true := hrest
    rw [hlook] at hrest'
    exact eq_of_beq hrest'

theorem read_metadata_of_ok {fs : FS} {p : Str}
    (hdd : containsDotDot p = false) (hsw : startsWithSlash p = false) :
    LocalBackend.read_metadata fs p =
      match fsLookup fs (metaPath p) with
      | none => .error (.notFound p)
      | some (.meta m) => .ok m
      | some (.data _) => .error (.serialization p) := by
  unfold LocalBackend.read_metadata get_metadata_path get_full_path
  rw [if_neg (by simp [hdd, hsw])]

theorem list_objects_dir_case {fs : FS} {ps : Str} (hne : ps.isEmpty = false)
    (hnf : isFileIn fs ps = false) (hdir : isDirIn fs ps = true) :
    LocalBackend.list_objects fs (some ps) none =
      fs.filterMap (walkEntry fs (dirSlash ps) ps) := by
  unfold LocalBackend.list_objects
  simp [hne, hnf, hdir]

theorem service_list_unfold {cache : List (Str × Bucket)} {fs : FS} {B : Str}
    {bkt : Bucket} (P : Str) (mk : Option Nat) (hc : cacheGet cache B = some bkt) :
    ObjectStoreService.list_objects cache fs B (some P) mk =
      .ok (((LocalBackend.list_objects fs (some (B ++ '/' :: P)) mk).filter
        (fun m => !(slashBucketSuf.isSuffixOf m.key))).map
        (fun m => if (B ++ ['/']).isPrefixOf m.key
          then { m with key := m.key.drop (B.length + 1) } else m)) := by
  unfold ObjectStoreService.list_objects
  rw [hc]

theorem walkEntry_red (fs : FS) (dirS ps p : Str) (d : FileData) :
    walkEntry fs dirS ps (p, d) =
      if (dirS.isPrefixOf p && !(metaExt.isSuffixOf p) && ps.isPrefixOf p) = true then
        (match LocalBackend.read_metadata fs p with
         | .ok m => some m
         | .error _ => none)
      else none := rfl

theorem walkEntry_eq {fs : FS} {dirS ps p : Str} (d : FileData)
    (hdd : containsDotDot p = false) (hsw : startsWithSlash p = false)
    (hdirS : dirS.isPrefixOf p = true) (hnm : metaExt.isSuffixOf p = false)
    (hps : ps.isPrefixOf p = true) {m₀ : ObjectMetadata}
    (hmeta : fsLookup fs (metaPath p) = some (.meta m₀)) :
    walkEntry fs dirS ps (p, d) = some m₀ := by
  rw [walkEntry_red, if_pos (by simp [hdirS, hnm, hps]), read_metadata_of_ok hdd hsw, hmeta]

theorem bslash_prefix_cons (B k : Str) : (B ++ ['/']).isPrefixOf (B ++ '/' :: k) = true := by
  apply prefix_isPrefixOf
  rw [show B ++ '/' :: k = (B ++ ['/']) ++ k by simp]
  exact List.prefix_append _ _

/-- C2 corrected: when the backend prefix `<B>/P` names an existing
directory (and not a file), `list_objects(B, P)` returns exactly the
stored objects whose full key lies under that directory, excluding keys
ending in `/.bucket` (the service's marker filter) and in `.meta.json`
(skipped by the walk); returned keys are the stored keys with `<B>/`
stripped.  The original claim — exactly those stored objects whose key
starts with `P`, for every `P` — fails on the code: the walk starts at
`bucket_path.join(prefix)`, so a partial-segment prefix reaches no
directory and returns nothing (`C2_counterexample`). -/
theorem C2_list_objects_amended (cache : List (Str × Bucket)) (fs : FS) (B P : Str)
    (bkt : Bucket)
    (hc : cacheGet cache B = some bkt)
    (hwf : WFfs fs)
    (hnf : isFileIn fs (B ++ '/' :: P) = false)
    (hdir : isDirIn fs (B ++ '/' :: P) = true) :
    ∃ out, ObjectStoreService.list_objects cache fs B (some P) none = .ok out ∧
      ∀ m : ObjectMetadata, m ∈ out ↔ ∃ k m₀,
        storedObj fs (B ++ '/' :: k) m₀ ∧ m₀.key = B ++ '/' :: k ∧
        m = { m₀ with key := k } ∧
        (dirSlash (B ++ '/' :: P)).isPrefixOf (B ++ '/' :: k) = true ∧
        slashBucketSuf.isSuffixOf (B ++ '/' :: k) = false ∧
        metaExt.isSuffixOf (B ++ '/' :: k) = false := by
  obtain ⟨hnd, hwfe⟩ := hwf
  have hne : (B ++ '/' :: P).isEmpty = false := by cases B <;> rfl
  refine ⟨_, by rw [service_list_unfold P none hc, list_objects_dir_case hne hnf hdir], ?_⟩
  intro m
  simp only [List.mem_map, List.mem_filter, List.mem_filterMap]
  constructor
  · rintro ⟨m₁, ⟨⟨e, hefs, hwalk⟩, hnotsuf⟩, rfl⟩
    obtain ⟨p1, d1⟩ := e
    rw [walkEntry_red] at hwalk
    split at hwalk
    · next hcond =>
      simp only [Bool.and_eq_true, Bool.not_eq_true'] at hcond
      obtain ⟨⟨hdirS, hnm⟩, -⟩ := hcond
      obtain ⟨hdd, hsw, hmetaN, hcoh⟩ := wfEntry_parts (hwfe _ hefs)
      rw [read_metadata_of_ok hdd hsw] at hwalk
      rcases hlk : fsLookup fs (metaPath p1) with - | fd
      · rw [hlk] at hwalk
        cases hwalk
      · rcases fd with bs' | m₀
        · rw [hlk] at hwalk
          cases hwalk
        · rw [hlk] at hwalk
          have hm01 : m₀ = m₁ := Option.some.inj hwalk
          subst hm01
          rcases hd1 : d1 with bs | mm
          · have hkey : m₀.key = p1 := hcoh bs m₀ hd1 hlk
            have hBp : (B ++ ['/']).isPrefixOf p1 = true :=
              isPrefixOf_trans (bslash_prefix_dirSlash B P) hdirS
            have he1 : p1 = B ++ '/' :: p1.drop (B.length + 1) := eq_bslash_drop hBp
            refine ⟨p1.drop (B.length + 1), m₀, ⟨⟨bs, ?_⟩, ?_⟩, ?_, ?_, ?_, ?_, ?_⟩
            · rw [← he1]
              have hm := mem_fsLookup hnd hefs
              rwa [hd1] at hm
            · rw [← he1]
              exact hlk
            · rw [← he1]
              exact hkey
            · rw [hkey, if_pos (he1 ▸ hBp)]
            · rw [← he1]
              exact hdirS
            · rw [← he1]
              simp only [Bool.not_eq_true'] at hnotsuf
              rwa [hkey] at hnotsuf
            · rw [← he1]
              exact hnm
          · exact absurd (hmetaN mm hd1) (by simp [hnm])
    · cases hwalk
  · rintro ⟨k, m₀, ⟨⟨bs, hdata⟩, hmeta⟩, hm0key, hmEq, hdirS, hsufb, hsufm⟩
    have hefs : (B ++ '/' :: k, FileData.data bs) ∈ fs := fsLookup_mem hdata
    obtain ⟨hdd, hsw, -, -⟩ := wfEntry_parts (hwfe _ hefs)
    have hps : (B ++ '/' :: P).isPrefixOf (B ++ '/' :: k) = true :=
      isPrefixOf_trans (dirSlash_starts_self _) hdirS
    refine ⟨m₀, ⟨⟨(B ++ '/' :: k, FileData.data bs), hefs,
      walkEntry_eq _ hdd hsw hdirS hsufm hps hmeta⟩, ?_⟩, ?_⟩
    · simp [hm0key, hsufb]
    · rw [hm0key, if_pos (bslash_prefix_cons B k), drop_bslash]
      exact hmEq.symm

/-- C2 counterexample: with one object stored at key `file1.txt` in
bucket `b`, listing with prefix `fi` returns the empty list although the
stored key starts with `fi` — the walk's starting directory
`bucket_path.join("b/fi")` does not exist. -/
theorem C2_counterexample :
    ∃ m fs',
      ObjectStoreService.put_object [("b".toList, Bucket.mk [] "b".toList 0)] []
        "b".toList "file1.txt".toList [104] none [] 0 = .ok (m, fs') ∧
      fsLookup fs' "b/file1.txt".toList = some (.data [104]) ∧
      ("fi".toList).isPrefixOf "file1.txt".toList = true ∧
      ObjectStoreService.list_objects [("b".toList, Bucket.mk [] "b".toList 0)] fs'
        "b".toList (some "fi".toList) none = .ok [] := by
  refine ⟨_, _, rfl, ?_, ?_, ?_⟩ <;> rfl

/-- A concrete well-formed bucket directory for C2's witness. -/
def c2fsW : FS :=
  [("b/s/f".toList, .data [1]),
   ("b/s/f.meta.json".toList, .meta (ObjectMetadata.mk "b/s/f".toList 1 none ['x'] 0 []))]

/-- A one-bucket cache for C2's witness. -/
def c2cacheW : List (Str × Bucket) := [("b".toList, Bucket.mk [] "b".toList 0)]

/-- Witness for C2's amended listing characterization at a concrete
store and directory-shaped prefix. -/
theorem C2_witness :
    cacheGet c2cacheW "b".toList = some (Bucket.mk [] "b".toList 0) ∧
    WFfs c2fsW ∧
    isFileIn c2fsW ("b".toList ++ '/' :: "s".toList) = false ∧
    isDirIn c2fsW ("b".toList ++ '/' :: "s".toList) = true ∧
    (∃ out, ObjectStoreService.list_objects c2cacheW c2fsW "b".toList
        (some "s".toList) none = .ok out ∧
      ∀ m : ObjectMetadata, m ∈ out ↔ ∃ k m₀,
        storedObj c2fsW ("b".toList ++ '/' :: k) m₀ ∧
        m₀.key = "b".toList ++ '/' :: k ∧
        m = { m₀ with key := k } ∧
        (dirSlash ("b".toList ++ '/' :: "s".toList)).isPrefixOf
          ("b".toList ++ '/' :: k) = true ∧
        slashBucketSuf.isSuffixOf ("b".toList ++ '/' :: k) = false ∧
        metaExt.isSuffixOf ("b".toList ++ '/' :: k) = false) :=
  ⟨by decide, by decide, by decide, by decide,
    C2_list_objects_amended c2cacheW c2fsW "b".toList "s".toList
      (Bucket.mk [] "b".toList 0) (by decide) (by decide) (by decide) (by decide)⟩

/-! ### Generic association-list store operations -/

def alookup {α : Type} (l : List (Str × α)) (k : Str) : Option α :=
  (l.find? fun e => e.1 == k).map (·.2)

def aput {α : Type} (l : List (Str × α)) (k : Str) (v : α) : List (Str × α) :=
  (k, v) :: l.filter fun e => !(e.1 == k)

theorem alookup_cons {α : Type} (e : Str × α) (t : List (Str × α)) (q : Str) :
    alookup (e :: t) q = if e.1 = q then some e.2 else alookup t q := by
  unfold alookup
  rw [List.find?_cons]
  by_cases h : e.1 = q
  · simp [h]
  · have hb : (e.1 == q) = false := beq_false_of_ne h
    simp [h, hb]

theorem alookup_filter_ne {α : Type} (l : List (Str × α)) (p q : Str) (h : q ≠ p) :
    alookup (l.filter fun e => !(e.1 == p)) q = alookup l q := by
  induction l with
  | nil => rfl
  | cons e t ih =>
    by_cases hep : e.1 = p
    · rw [List.filter_cons_of_neg (by simp [hep]), ih, alookup_cons,
        if_neg (show ¬ e.1 = q from fun hq => h (hq ▸ hep))]
    · rw [List.filter_cons_of_pos (by simp [hep]), alookup_cons, alookup_cons, ih]

theorem alookup_put_self {α : Type} (l : List (Str × α)) (k : Str) (v : α) :
    alookup (aput l k v) k = some v := by
  unfold aput
  rw [alookup_cons, if_pos rfl]

theorem alookup_put_ne {α : Type} (l : List (Str × α)) (k : Str) (v : α) (q : Str)
    (h : q ≠ k) : alookup (aput l k v) q = alookup l q := by
  unfold aput
  rw [alookup_cons, if_neg (fun hpq => h hpq.symm), alookup_filter_ne l k q h]

theorem countP_filter_self {α : Type} (l : List (Str × α)) (k : Str) :
    (l.filter fun e => !(e.1 == k)).countP (fun e => e.1 == k) = 0 := by
  rw [List.countP_eq_zero]
  intro a ha
  rw [List.mem_filter] at ha
  simp only [Bool.not_eq_true'] at ha
  simp [ha.2]

theorem countP_put_self {α : Type} (l : List (Str × α)) (k : Str) (v : α) :
    (aput l k v).countP (fun e => e.1 == k) = 1 := by
  unfold aput
  rw [List.countP_cons, countP_filter_self]
  simp

theorem countP_put_other {α : Type} (l : List (Str × α)) (k k' : Str) (v : α)
    (h : k' ≠ k) :
    (aput l k' v).countP (fun e => e.1 == k) = l.countP (fun e => e.1 == k) := by
  unfold aput
  rw [List.countP_cons]
  have hk : ((k', v).1 == k) = false := beq_false_of_ne h
  rw [hk]
  simp only [if_neg, Bool.false_eq_true, add_zero, ite_false]
  induction l with
  | nil => rfl
  | cons e t ih =>
    by_cases hep : e.1 = k'
    · rw [List.filter_cons_of_neg (by simp [hep]), ih, List.countP_cons]
      have : (e.1 == k) = false := beq_false_of_ne (hep ▸ h)
      simp [this]
    · rw [List.filter_cons_of_pos (by simp [hep]), List.countP_cons, List.countP_cons, ih]

/-! ### Metadata store over the abstract Backend
(src/object-store/src/metadata.rs)

The `Backend` trait (src/object-store-backends/src/backend.rs) is a flat
keyspace with put/get/delete/list; it is modelled as an association list
from keys to records.  Records the code JSON-serializes are stored
structurally (serde round-trips); reading a record of the wrong shape
models a parse failure, which `From<serde_json::Error>` turns into
`ServiceError::Internal`.  Timestamps are integer seconds, passed as
`now`.  Backend calls are recorded as an event trace where a claim
depends on them. -/

/-- `Lock` from src/object-store/src/metadata.rs. -/
structure Lock where
  resource : Str
  owner : Str
  acquired_at : Int
  expires_at : Int
  deriving DecidableEq

/-- A record in the abstract backend store. -/
inductive Entry where
  | bucketRec (b : Bucket)
  | lockRec (l : Lock)
  | blob
  deriving DecidableEq

/-- The abstract backend: key to record. -/
abbrev KV := List (Str × Entry)

def kvGet (st : KV) (k : Str) : Option Entry := alookup st k

def kvPut (st : KV) (k : Str) (v : Entry) : KV := aput st k v

/-- `list_objects(prefix)` of the Backend contract: the stored entries
whose key starts with the prefix. -/
def kvList (st : KV) (ps : Str) : List (Str × Entry) :=
  st.filter fun e => ps.isPrefixOf e.1

instance : Inhabited Entry := ⟨.blob⟩

instance : Nonempty Entry := ⟨.blob⟩

instance : Nonempty (Str × Entry) := ⟨([], .blob)⟩

/-- A backend call, for event traces. -/
inductive Ev where
  | get (k : Str)
  | put (k : Str)
  | del (k : Str)
  | list (ps : Str)
  deriving DecidableEq

def bucketsPrefix : Str := ".metadata/buckets".toList

def locksPrefix : Str := ".metadata/locks".toList

/-- `bucket_key(name) = ".metadata/buckets/<name>.json"`. -/
def bucket_key (name : Str) : Str := bucketsPrefix ++ '/' :: (name ++ ".json".toList)

/-- `".metadata/locks/<resource>"`. -/
def lock_key (resource : Str) : Str := locksPrefix ++ '/' :: resource

/-- `generate_bucket_id`.  `DefaultHasher` is the Rust standard
library's SipHash, external to this repository; it is modelled by a
deterministic FNV-1a-style 64-bit fold, keeping the property the code
relies on (the id is a pure function of the name), formatted
`bucket-%016x` as in the source. -/
def nameHash64 (name : Str) : Nat :=
  name.foldl (fun h c => ((h ^^^ c.toNat) * 1099511628211) % 18446744073709551616)
    14695981039346656037

def toHexPad (n : Nat) : Nat → Str
  | 0 => []
  | k + 1 => toHexPad (n / 16) k ++ [hexDigitChar (n % 16)]

def generate_bucket_id (name : Str) : Str :=
  "bucket-".toList ++ toHexPad (nameHash64 name) 16

/-- The metadata store's state: the backend store, the in-memory bucket
cache and the cache's `last_refresh` instant. -/
structure MState where
  backend : KV
  cache : List (Str × Bucket)
  lastRefresh : Int
  deriving DecidableEq

def CACHE_TTL_SECONDS : Int := 60

/-- `BucketCache::is_expired`: strictly older than the TTL. -/
def BucketCache.is_expired (st : MState) (now : Int) : Bool :=
  decide (now - st.lastRefresh > CACHE_TTL_SECONDS)

/-- `BucketCache::insert` (HashMap insert: replaces). -/
def cacheInsert (cache : List (Str × Bucket)) (b : Bucket) : List (Str × Bucket) :=
  aput cache b.name b

/-- `load_bucket_from_backend`: one backend get; a record of the wrong
shape is a parse failure (`Internal`); absence is `Ok(None)`. -/
def load_bucket_from_backend (st : MState) (name : Str) :
    Except ServiceError (Option Bucket) × List Ev :=
  (match kvGet st.backend (bucket_key name) with
   | some (.bucketRec b) => .ok (some b)
   | some _ => .error (.internal name)
   | none => .ok none,
   [Ev.get (bucket_key name)])

/-- `load_buckets_from_backend`: list the catalog folder, read each
entry; per-object parse failures are tolerated unless nothing loads. -/
def load_buckets_from_backend (st : MState) :
    Except ServiceError (List Bucket) × List Ev :=
  let objs := kvList st.backend bucketsPrefix
  let parsed := objs.filterMap fun e =>
    match e.2 with
    | .bucketRec b => some b
    | _ => none
  let events := Ev.list bucketsPrefix :: objs.map fun e => Ev.get e.1
  if parsed.length < objs.length && parsed.isEmpty then (.error (.internal []), events)
  else (.ok parsed, events)

/-- `refresh_cache`: reload every catalog record and replace the cache,
stamping `last_refresh = now`. -/
def refresh_cache (st : MState) (now : Int) : Except ServiceError MState × List Ev :=
  match load_buckets_from_backend st with
  | (.error e, evs) => (.error e, evs)
  | (.ok buckets, evs) =>
    (.ok { st with cache := buckets.foldl cacheInsert [], lastRefresh := now }, evs)

/-- `ensure_cache_fresh`: refresh only when expired. -/
def ensure_cache_fresh (st : MState) (now : Int) : Except ServiceError MState × List Ev :=
  if BucketCache.is_expired st now then refresh_cache st now else (.ok st, [])

/-- `MetadataStore::get_bucket`: cache hit (no freshness check), else
direct backend probe (populating the cache), else full refresh and
re-probe, else `BucketNotFound`. -/
def MetadataStore.get_bucket (st : MState) (now : Int) (name : Str) :
    Except ServiceError Bucket × MState × List Ev :=
  match cacheGet st.cache name with
  | some b => (.ok b, st, [])
  | none =>
    match load_bucket_from_backend st name with
    | (.error e, evs) => (.error e, st, evs)
    | (.ok (some b), evs) => (.ok b, { st with cache := cacheInsert st.cache b }, evs)
    | (.ok none, evs) =>
      match refresh_cache st now with
      | (.error e, evs2) => (.error e, st, evs ++ evs2)
      | (.ok st', evs2) =>
        match cacheGet st'.cache name with
        | some b => (.ok b, st', evs ++ evs2)
        | none => (.error (.bucketNotFound name), st', evs ++ evs2)

/-- `MetadataStore::create_bucket`: validate the name, check the cache,
double-check the backend (updating the cache on a hit), then write the
catalog record and insert it into the cache. -/
def MetadataStore.create_bucket (st : MState) (now : Int) (name : Str) :
    Except ServiceError Bucket × MState :=
  if !(is_valid_bucket_name name) then (.error (.invalidBucketName name), st)
  else
    if (cacheGet st.cache name).isSome then (.error (.bucketAlreadyExists name), st)
    else
      match (load_bucket_from_backend st name).1 with
      | .error e => (.error e, st)
      | .ok (some existing) =>
        (.error (.bucketAlreadyExists name),
          { st with cache := cacheInsert st.cache existing })
      | .ok none =>
        let bucket : Bucket := ⟨generate_bucket_id name, name, now⟩
        (.ok bucket,
          { st with
            backend := kvPut st.backend (bucket_key name) (.bucketRec bucket)
            cache := cacheInsert st.cache bucket })

/-- `ObjectStoreService::create_bucket`: the catalog entry via the
metadata store, then the zero-byte `<name>/.bucket` marker. -/
def ObjectStoreService.create_bucket (st : MState) (now : Int) (name : Str) :
    Except ServiceError Bucket × MState :=
  match MetadataStore.create_bucket st now name with
  | (.error e, st') => (.error e, st')
  | (.ok bucket, st') =>
    (.ok bucket, { st' with backend := kvPut st'.backend (name ++ slashBucketSuf) .blob })

/-- `MetadataStore::try_acquire_lock`: read the lock record; if present,
parseable and unexpired, return `false`; if absent or expired, write a
fresh record (`acquired_at = now`, `expires_at = now + ttl`) and return
`true`; an unparseable record is an error. -/
def MetadataStore.try_acquire_lock (st : MState) (now : Int) (resource owner : Str)
    (ttl_seconds : Int) : Except ServiceError Bool × MState :=
  match kvGet st.backend (lock_key resource) with
  | some (.lockRec l) =>
    if l.expires_at > now then (.ok false, st)
    else
      let lk : Entry := .lockRec ⟨resource, owner, now, now + ttl_seconds⟩
      (.ok true, { st with backend := kvPut st.backend (lock_key resource) lk })
  | some _ => (.error (.internal resource), st)
  | none =>
    let lk : Entry := .lockRec ⟨resource, owner, now, now + ttl_seconds⟩
    (.ok true, { st with backend := kvPut st.backend (lock_key resource) lk })

/-- `ObjectStoreService::put_object`, control-plane trace model over the
abstract backend: the bucket-existence check runs first (and may itself
contact the backend), then key validation, then the backend put.  The
returned metadata value is the Local model's concern; here only the
result kind, the state and the backend-call trace are modelled. -/
def ObjectStoreService.put_object_kv (st : MState) (now : Int) (bucket key : Str) :
    Except ServiceError Unit × MState × List Ev :=
  match MetadataStore.get_bucket st now bucket with
  | (.error e, st', evs) => (.error e, st', evs)
  | (.ok _, st', evs) =>
    match validate_object_key key with
    | .error e => (.error e, st', evs)
    | .ok () =>
      (.ok (), { st' with backend := kvPut st'.backend (bucket ++ '/' :: key) .blob },
        evs ++ [Ev.put (bucket ++ '/' :: key)])

/-! ### Lock claims (C6, C10) -/

/-- C6: `try_acquire_lock(R, O, t)` returns `false` exactly when a
parseable lock record for `R` exists with `expires_at > now`; when the
record is absent, or present but expired, it writes a fresh record with
`acquired_at = now` and `expires_at = now + t` and returns `true`. -/
theorem C6_try_acquire_lock (st : MState) (now : Int) (R O : Str) (t : Int) :
    ((MetadataStore.try_acquire_lock st now R O t).1 = .ok false ↔
      ∃ l, kvGet st.backend (lock_key R) = some (.lockRec l) ∧ l.expires_at > now) ∧
    ((kvGet st.backend (lock_key R) = none ∨
      ∃ l, kvGet st.backend (lock_key R) = some (.lockRec l) ∧ l.expires_at ≤ now) →
      (MetadataStore.try_acquire_lock st now R O t).1 = .ok true ∧
      (MetadataStore.try_acquire_lock st now R O t).2.backend =
        kvPut st.backend (lock_key R) (.lockRec ⟨R, O, now, now + t⟩) ∧
      kvGet (MetadataStore.try_acquire_lock st now R O t).2.backend (lock_key R) =
        some (.lockRec ⟨R, O, now, now + t⟩)) := by
  rcases hk : kvGet st.backend (lock_key R) with - | entry
  · refine ⟨⟨fun h => ?_, fun h => ?_⟩, fun _ => ⟨?_, ?_, ?_⟩⟩
    · simp only [MetadataStore.try_acquire_lock, hk] at h
      simp at h
    · obtain ⟨l, hl, -⟩ := h
      cases hl
    · simp only [MetadataStore.try_acquire_lock, hk]
    · simp only [MetadataStore.try_acquire_lock, hk]
    · simp only [MetadataStore.try_acquire_lock, hk]
      exact alookup_put_self _ _ _
  · rcases entry with b | l | _
    · refine ⟨⟨fun h => ?_, fun h => ?_⟩, fun h => ?_⟩
      · simp only [MetadataStore.try_acquire_lock, hk] at h
        simp at h
      · obtain ⟨l, hl, -⟩ := h
        simp at hl
      · rcases h with h | ⟨l, hl, -⟩
        · cases h
        · simp at hl
    · by_cases hexp : l.expires_at > now
      · refine ⟨⟨fun _ => ⟨l, rfl, hexp⟩, fun _ => ?_⟩, fun h => ?_⟩
        · simp only [MetadataStore.try_acquire_lock, hk, if_pos hexp]
        · rcases h with h | ⟨l', hl', hle⟩
          · cases h
          · have hll : l = l' := by simpa using hl'
            rw [← hll] at hle
            omega
      · refine ⟨⟨fun h => ?_, fun h => ?_⟩, fun _ => ⟨?_, ?_, ?_⟩⟩
        · simp only [MetadataStore.try_acquire_lock, hk, if_neg hexp] at h
          simp at h
        · obtain ⟨l', hl', hgt⟩ := h
          have hll : l = l' := by simpa using hl'
          rw [← hll] at hgt
          omega
        · simp only [MetadataStore.try_acquire_lock, hk, if_neg hexp]
        · simp only [MetadataStore.try_acquire_lock, hk, if_neg hexp]
        · simp only [MetadataStore.try_acquire_lock, hk, if_neg hexp]
          exact alookup_put_self _ _ _
    · refine ⟨⟨fun h => ?_, fun h => ?_⟩, fun h => ?_⟩
      · simp only [MetadataStore.try_acquire_lock, hk] at h
        simp at h
      · obtain ⟨l, hl, -⟩ := h
        simp at hl
      · rcases h with h | ⟨l, hl, -⟩
        · cases h
        · simp at hl

/-- Witness for C6 at a concrete store: no lock exists, so acquisition
writes the fresh record and returns true. -/
theorem C6_witness :
    (kvGet ([] : KV) (lock_key "r".toList) = none ∨
      ∃ l, kvGet ([] : KV) (lock_key "r".toList) = some (.lockRec l) ∧
        l.expires_at ≤ 5) ∧
    ((MetadataStore.try_acquire_lock (MState.mk [] [] 0) 5 "r".toList "o".toList 10).1 =
        .ok true ∧
      (MetadataStore.try_acquire_lock (MState.mk [] [] 0) 5 "r".toList "o".toList
        10).2.backend =
        kvPut [] (lock_key "r".toList) (.lockRec ⟨"r".toList, "o".toList, 5, 5 + 10⟩) ∧
      kvGet (MetadataStore.try_acquire_lock (MState.mk [] [] 0) 5 "r".toList "o".toList
          10).2.backend (lock_key "r".toList) =
        some (.lockRec ⟨"r".toList, "o".toList, 5, 5 + 10⟩)) :=
  ⟨Or.inl rfl,
    (C6_try_acquire_lock (MState.mk [] [] 0) 5 "r".toList "o".toList 10).2 (Or.inl rfl)⟩

/-- C10: when an unexpired lock record exists for the resource,
`try_acquire_lock` returns `false` and leaves the state unchanged, even
when the stored owner is the caller itself — a holder cannot renew or
re-enter its own still-valid lock. -/
theorem C10_no_reentrant_acquire (st : MState) (now : Int) (R O : Str) (t : Int)
    (l : Lock)
    (hl : kvGet st.backend (lock_key R) = some (.lockRec l))
    (hexp : l.expires_at > now)
    (_howner : l.owner = O) :
    MetadataStore.try_acquire_lock st now R O t = (.ok false, st) := by
  simp only [MetadataStore.try_acquire_lock, hl, if_pos hexp]

/-- Witness for C10: the holder `o` itself retries within the TTL and is
refused, the record untouched. -/
theorem C10_witness :
    kvGet [(lock_key "r".toList, Entry.lockRec ⟨"r".toList, "o".toList, 0, 100⟩)]
      (lock_key "r".toList) = some (.lockRec ⟨"r".toList, "o".toList, 0, 100⟩) ∧
    ((100 : Int) > 50) ∧
    MetadataStore.try_acquire_lock
      (MState.mk [(lock_key "r".toList, Entry.lockRec ⟨"r".toList, "o".toList, 0, 100⟩)]
        [] 0) 50 "r".toList "o".toList 30 =
      (.ok false,
        MState.mk [(lock_key "r".toList, Entry.lockRec ⟨"r".toList, "o".toList, 0, 100⟩)]
          [] 0) :=
  ⟨rfl, by decide,
    C10_no_reentrant_acquire _ 50 "r".toList "o".toList 30 _ rfl (by decide) rfl⟩

/-! ### C3: creating the same bucket twice -/

theorem load_bucket_fst (st : MState) (name : Str) :
    (load_bucket_from_backend st name).1 =
      match kvGet st.backend (bucket_key name) with
      | some (.bucketRec b) => .ok (some b)
      | some _ => .error (.internal name)
      | none => .ok none := rfl

theorem valid_name_head_ne_dot {B : Str} (hB : is_valid_bucket_name B = true) :
    ∃ a t, B = a :: t ∧ a ≠ '.' := by
  obtain ⟨a, mid, z, rfl, -, -, ha, -, -⟩ := (is_valid_bucket_name_iff B).mp hB
  exact ⟨a, mid ++ [z], rfl, (lowerOrDigit_ne_dot_slash ha).1⟩

theorem marker_ne_bucket_key {N : Str} (hvalid : is_valid_bucket_name N = true) :
    N ++ slashBucketSuf ≠ bucket_key N := by
  obtain ⟨a, t2, hNs, ha⟩ := valid_name_head_ne_dot hvalid
  rw [hNs]
  intro hEq
  have hdot : a = '.' := by
    calc a = (((a :: t2) ++ slashBucketSuf).headD ' ') := rfl
    _ = ((bucket_key (a :: t2)).headD ' ') := by rw [hEq]
    _ = '.' := rfl
  exact ha hdot

/-- C3: after a successful `create_bucket(N)`, a second sequential
`create_bucket(N)` fails with `BucketAlreadyExists`, leaves the state
untouched, and exactly one catalog record exists at
`.metadata/buckets/N.json`. -/
theorem C3_create_bucket_twice (st : MState) (now1 now2 : Int) (N : Str)
    (b : Bucket) (st1 : MState)
    (h1 : ObjectStoreService.create_bucket st now1 N = (.ok b, st1)) :
    (ObjectStoreService.create_bucket st1 now2 N).1 =
      .error (.bucketAlreadyExists N) ∧
    (ObjectStoreService.create_bucket st1 now2 N).2 = st1 ∧
    st1.backend.countP (fun e => e.1 == bucket_key N) = 1 := by
  unfold ObjectStoreService.create_bucket at h1
  cases hmc : MetadataStore.create_bucket st now1 N with
  | mk r stm =>
  rw [hmc] at h1
  cases r with
  | error e => simp at h1
  | ok bb =>
    simp only [Prod.mk.injEq, Except.ok.injEq] at h1
    obtain ⟨hb, hst1⟩ := h1
    unfold MetadataStore.create_bucket at hmc
    split at hmc
    · simp at hmc
    · next hval =>
      have hvalid : is_valid_bucket_name N = true := by
        rcases Bool.eq_false_or_eq_true (is_valid_bucket_name N) with hv | hv
        · exact hv
        · exact absurd (by simp [hv]) hval
      split at hmc
      · simp at hmc
      · rw [load_bucket_fst] at hmc
        rcases hkv : kvGet st.backend (bucket_key N) with - | entry
        · rw [hkv] at hmc
          simp only [Prod.mk.injEq, Except.ok.injEq] at hmc
          obtain ⟨hbb, hstm⟩ := hmc
          have hcg : cacheGet st1.cache N = some ⟨generate_bucket_id N, N, now1⟩ := by
            rw [← hst1, ← hstm]
            exact alookup_put_self _ _ _
          have h2nd : MetadataStore.create_bucket st1 now2 N =
              (.error (.bucketAlreadyExists N), st1) := by
            unfold MetadataStore.create_bucket
            rw [if_neg (by simp [hvalid]), if_pos (by simp [hcg])]
          refine ⟨?_, ?_, ?_⟩
          · unfold ObjectStoreService.create_bucket
            rw [h2nd]
          · unfold ObjectStoreService.create_bucket
            rw [h2nd]
          · rw [← hst1, ← hstm]
            show ((kvPut (kvPut st.backend (bucket_key N) _) (N ++ slashBucketSuf)
              .blob).countP fun e => e.1 == bucket_key N) = 1
            unfold kvPut
            rw [countP_put_other _ _ _ _ (marker_ne_bucket_key hvalid),
              countP_put_self]
        · rcases entry with b2 | l2 | -
          · rw [hkv] at hmc
            simp at hmc
          · rw [hkv] at hmc
            simp at hmc
          · rw [hkv] at hmc
            simp at hmc

/-- Witness for C3: creating `abc` on an empty store succeeds, so the
second creation conflicts and one catalog record remains. -/
theorem C3_witness :
    ∃ b st1,
      ObjectStoreService.create_bucket (MState.mk [] [] 0) 1 "abc".toList =
        (.ok b, st1) ∧
      (ObjectStoreService.create_bucket st1 2 "abc".toList).1 =
        .error (.bucketAlreadyExists "abc".toList) ∧
      (ObjectStoreService.create_bucket st1 2 "abc".toList).2 = st1 ∧
      st1.backend.countP (fun e => e.1 == bucket_key "abc".toList) = 1 := by
  refine ⟨_, _, rfl, C3_create_bucket_twice (MState.mk [] [] 0) 1 2 "abc".toList _ _ rfl⟩

/-! ### C7 and C9: cache staleness and the order of checks -/

theorem load_bucket_none {st : MState} {name : Str}
    (h : kvGet st.backend (bucket_key name) = none) :
    load_bucket_from_backend st name = (.ok none, [Ev.get (bucket_key name)]) := by
  unfold load_bucket_from_backend
  rw [h]

theorem load_bucket_found {st : MState} {name : Str} {b : Bucket}
    (h : kvGet st.backend (bucket_key name) = some (.bucketRec b)) :
    load_bucket_from_backend st name = (.ok (some b), [Ev.get (bucket_key name)]) := by
  unfold load_bucket_from_backend
  rw [h]

theorem load_bucket_lock {st : MState} {name : Str} {l : Lock}
    (h : kvGet st.backend (bucket_key name) = some (.lockRec l)) :
    load_bucket_from_backend st name =
      (.error (.internal name), [Ev.get (bucket_key name)]) := by
  unfold load_bucket_from_backend
  rw [h]

theorem load_bucket_blob {st : MState} {name : Str}
    (h : kvGet st.backend (bucket_key name) = some .blob) :
    load_bucket_from_backend st name =
      (.error (.internal name), [Ev.get (bucket_key name)]) := by
  unfold load_bucket_from_backend
  rw [h]

theorem load_buckets_snd (st : MState) :
    (load_buckets_from_backend st).2 =
      Ev.list bucketsPrefix :: (kvList st.backend bucketsPrefix).map fun e => Ev.get e.1 := by
  simp only [load_buckets_from_backend]
  split <;> rfl

theorem refresh_cache_snd (st : MState) (now : Int) :
    (refresh_cache st now).2 = (load_buckets_from_backend st).2 := by
  unfold refresh_cache
  rcases h : load_buckets_from_backend st with ⟨r, evs⟩
  rcases r with e | bl <;> simp

theorem get_bucket_no_put (st : MState) (now : Int) (name : Str) (k : Str) :
    Ev.put k ∉ (MetadataStore.get_bucket st now name).2.2 := by
  unfold MetadataStore.get_bucket
  rcases hcg : cacheGet st.cache name with - | b
  · rcases hkv : kvGet st.backend (bucket_key name) with - | entry
    · rcases hr : refresh_cache st now with ⟨r2, evs2⟩
      have hevs2 : evs2 = Ev.list bucketsPrefix ::
          (kvList st.backend bucketsPrefix).map fun e => Ev.get e.1 := by
        have hs := refresh_cache_snd st now
        rw [hr, load_buckets_snd] at hs
        exact hs
      rcases r2 with e2 | st2
      · simp only [hcg, load_bucket_none hkv, hr, hevs2]
        simp
      · rcases hcg2 : cacheGet st2.cache name with - | b2 <;>
          · simp only [hcg, load_bucket_none hkv, hr, hcg2, hevs2]
            simp
    · rcases entry with b2 | l2 | -
      · simp only [hcg, load_bucket_found hkv]
        simp
      · simp only [hcg, load_bucket_lock hkv]
        simp
      · simp only [hcg, load_bucket_blob hkv]
        simp
  · simp only [hcg]
    simp

/-- C7 counterexample: a positive `get_bucket` cache hit performs no
backend call and no freshness check: with `last_refresh = 0`, `now =
1000` (far beyond the 60-second TTL) and a backend holding no record of
the bucket, the cached record is still served with an empty trace — the
entry lags the backend by more than `CACHE_TTL`. -/
theorem C7_counterexample :
    MetadataStore.get_bucket
      (MState.mk [] [("b".toList, Bucket.mk [] "b".toList 0)] 0) 1000 "b".toList =
      (.ok (Bucket.mk [] "b".toList 0),
        MState.mk [] [("b".toList, Bucket.mk [] "b".toList 0)] 0, []) ∧
    ((1000 : Int) - 0 > CACHE_TTL_SECONDS) ∧
    kvGet ([] : KV) (bucket_key "b".toList) = none ∧
    BucketCache.is_expired (MState.mk [] [("b".toList, Bucket.mk [] "b".toList 0)] 0)
      1000 = true :=
  ⟨rfl, by decide, rfl, by decide⟩

/-- C7 corrected: `get_bucket` serves positive cache hits without any
TTL check (they may lag the backend arbitrarily, see the
counterexample); what the code does guarantee is that a
`BucketNotFound` answer is never produced from the cache alone — the
trace of such a call always contains the direct catalog probe and the
full-refresh listing — and that the TTL governs `ensure_cache_fresh`:
no refresh happens while `now - last_refresh ≤ 60`, and `is_expired`
holds exactly beyond 60 seconds. -/
theorem C7_cache_behavior (st : MState) (now : Int) (name : Str) :
    (∀ st' evs, MetadataStore.get_bucket st now name =
        (.error (.bucketNotFound name), st', evs) →
      Ev.get (bucket_key name) ∈ evs ∧ Ev.list bucketsPrefix ∈ evs) ∧
    (BucketCache.is_expired st now = false → ensure_cache_fresh st now = (.ok st, [])) ∧
    (BucketCache.is_expired st now = true ↔ now - st.lastRefresh > CACHE_TTL_SECONDS) := by
  refine ⟨?_, ?_, ?_⟩
  · intro st' evs h
    unfold MetadataStore.get_bucket at h
    rcases hcg : cacheGet st.cache name with - | b
    · rcases hkv : kvGet st.backend (bucket_key name) with - | entry
      · rcases hr : refresh_cache st now with ⟨r2, evs2⟩
        have hevs2 : evs2 = Ev.list bucketsPrefix ::
            (kvList st.backend bucketsPrefix).map fun e => Ev.get e.1 := by
          have hs := refresh_cache_snd st now
          rw [hr, load_buckets_snd] at hs
          exact hs
        rcases r2 with e2 | st2
        · simp only [hcg, load_bucket_none hkv, hr] at h
          simp only [Prod.mk.injEq] at h
          obtain ⟨-, -, hevs⟩ := h
          rw [← hevs, hevs2]
          simp
        · rcases hcg2 : cacheGet st2.cache name with - | b2
          · simp only [hcg, load_bucket_none hkv, hr, hcg2] at h
            simp only [Prod.mk.injEq] at h
            obtain ⟨-, -, hevs⟩ := h
            rw [← hevs, hevs2]
            simp
          · simp only [hcg, load_bucket_none hkv, hr, hcg2] at h
            simp at h
      · rcases entry with b2 | l2 | -
        · simp only [hcg, load_bucket_found hkv] at h
          simp at h
        · simp only [hcg, load_bucket_lock hkv] at h
          simp at h
        · simp only [hcg, load_bucket_blob hkv] at h
          simp at h
    · simp only [hcg] at h
      simp at h
  · intro hfresh
    unfold ensure_cache_fresh
    rw [hfresh]
    rfl
  · unfold BucketCache.is_expired
    simp

/-- Witness for C7 at a concrete empty store: the not-found answer's
trace contains the probe and the listing, and a fresh cache is not
refreshed. -/
theorem C7_witness :
    (Ev.get (bucket_key "b".toList) ∈
        (MetadataStore.get_bucket (MState.mk [] [] 0) 0 "b".toList).2.2 ∧
      Ev.list bucketsPrefix ∈
        (MetadataStore.get_bucket (MState.mk [] [] 0) 0 "b".toList).2.2) ∧
    ensure_cache_fresh (MState.mk [] [] 0) 0 = (.ok (MState.mk [] [] 0), []) :=
  ⟨(C7_cache_behavior (MState.mk [] [] 0) 0 "b".toList).1 _ _ rfl,
    (C7_cache_behavior (MState.mk [] [] 0) 0 "b".toList).2.1 (by decide)⟩

/-- C9 counterexample: with the bucket absent from the cache but present
in the backend, `put_object` on the invalid key `.bucket` returns the
validation error only after a backend `get` of the bucket's catalog
record — the trace is not empty, so validation errors are not raised
before every backend call. -/
theorem C9_counterexample :
    (ObjectStoreService.put_object_kv
      (MState.mk [(bucket_key "b".toList, Entry.bucketRec (Bucket.mk [] "b".toList 0))]
        [] 1000) 1000 "b".toList dotBucket).1 =
      .error (.invalidObjectKey dotBucket) ∧
    (ObjectStoreService.put_object_kv
      (MState.mk [(bucket_key "b".toList, Entry.bucketRec (Bucket.mk [] "b".toList 0))]
        [] 1000) 1000 "b".toList dotBucket).2.2 = [Ev.get (bucket_key "b".toList)] ∧
    [Ev.get (bucket_key "b".toList)] ≠ ([] : List Ev) :=
  ⟨rfl, rfl, by decide⟩

/-- C9 corrected: on every data-plane call whose bucket resolves and
whose key is invalid, the validation error is returned before any
backend call on the object itself — the trace is exactly the
bucket-existence check's trace, which contains no put; when the bucket
is a cache hit that trace is empty.  The original claim fails because
the bucket check runs first and may itself contact the backend
(`C9_counterexample`). -/
theorem C9_validation_order (st : MState) (now : Int) (B K : Str)
    (b : Bucket) (st' : MState) (evs : List Ev) (e : ServiceError)
    (hg : MetadataStore.get_bucket st now B = (.ok b, st', evs))
    (hv : validate_object_key K = .error e) :
    ObjectStoreService.put_object_kv st now B K = (.error e, st', evs) ∧
    (∀ k, Ev.put k ∉ evs) ∧
    ((cacheGet st.cache B).isSome = true → evs = []) := by
  refine ⟨?_, ?_, ?_⟩
  · unfold ObjectStoreService.put_object_kv
    rw [hg, hv]
  · intro k hk
    have hnp := get_bucket_no_put st now B k
    rw [hg] at hnp
    exact hnp hk
  · intro hsome
    unfold MetadataStore.get_bucket at hg
    rcases hcg : cacheGet st.cache B with - | b2
    · rw [hcg] at hsome
      simp at hsome
    · rw [hcg] at hg
      simp only [Prod.mk.injEq, Except.ok.injEq] at hg
      obtain ⟨-, -, hevs⟩ := hg
      exact hevs.symm

/-- Witness for C9's corrected ordering at a concrete cached bucket and
invalid key. -/
theorem C9_witness :
    MetadataStore.get_bucket
      (MState.mk [] [("b".toList, Bucket.mk [] "b".toList 0)] 0) 0 "b".toList =
      (.ok (Bucket.mk [] "b".toList 0),
        MState.mk [] [("b".toList, Bucket.mk [] "b".toList 0)] 0, []) ∧
    validate_object_key dotBucket = .error (.invalidObjectKey dotBucket) ∧
    (ObjectStoreService.put_object_kv
        (MState.mk [] [("b".toList, Bucket.mk [] "b".toList 0)] 0) 0 "b".toList
        dotBucket =
      (.error (.invalidObjectKey dotBucket),
        MState.mk [] [("b".toList, Bucket.mk [] "b".toList 0)] 0, []) ∧
      (∀ k, Ev.put k ∉ ([] : List Ev)) ∧
      ((cacheGet [("b".toList, Bucket.mk [] "b".toList 0)] "b".toList).isSome = true →
        ([] : List Ev) = [])) :=
  ⟨rfl, rfl,
    C9_validation_order (MState.mk [] [("b".toList, Bucket.mk [] "b".toList 0)] 0) 0
      "b".toList dotBucket (Bucket.mk [] "b".toList 0)
      (MState.mk [] [("b".toList, Bucket.mk [] "b".toList 0)] 0) [] _ rfl rfl⟩

end ObjStore
